import Mathlib

/-!
# GHCR cleaner: retention decision, glob matching, deletion tally, pagination cursor

A shallow embedding of `action.go`.  Strings are Lean strings (sequences of
Unicode code points; the separators the program splits on are ASCII), `int64`
identifiers are integers, a `time.Time` is the integer instant it denotes
(`After` is `>`), and a `*Version` pointing into the `versions` slice of a
package is the pair of the slice index and the element stored there.  Calls that
leave the program (the registry, the REST API, the standard library's
`sort.Slice`, `json.Unmarshal`, `url.Parse`, `time.Parse`) are fields of an
environment record, and a network answer may depend on which call asks;
`fmt.Printf` output is modelled only where a statement below reads it.
-/

namespace GhcrCleaner

deriving instance DecidableEq for Except

/-! ## Data model -/

/-- Package, the struct of that name. -/
structure Package where
  Name : String
  VersionURL : String
  Owner : String
  OwnerType : String
deriving DecidableEq, Repr

/-- Version, the struct of that name; `Pkg` holds the pointee of the `*Package` field. -/
structure Version where
  ID : Int
  Digest : String
  Date : Int
  Tags : List String
  URL : String
  Pkg : Package
deriving DecidableEq, Repr

/-- A `*Version` taken as `&versions[i]`: the index `i` together with `versions[i]`. -/
abbrev VersionPtr := Nat × Version

/-- One element of `Manifest.Manifests` (the `platform` sub-record is never read). -/
structure ManifestEntry where
  MediaType : String
  Digest : String
  Size : Int
deriving DecidableEq, Repr

/-- Manifest, the struct decoded from the registry's manifest list. -/
structure Manifest where
  Manifests : List ManifestEntry
deriving DecidableEq, Repr

/-- The calls of `run` that leave the program. -/
structure Env where
  /-- `filepath.Match(pattern, name)`: `(matched, err)`. -/
  filepathMatch : String → String → Except String Bool
  /-- `sort.Slice(list, less)`, with `less` given on elements. -/
  sortSlice : (VersionPtr → VersionPtr → Bool) → List VersionPtr → List VersionPtr
  /-- `getManifest(repository, reference)`, called for the version at index `i` of the
  package's slice: the response body or an error.  The index lets two requests for
  one reference be answered differently. -/
  getManifest : Nat → String → String → Except String String
  /-- `json.Unmarshal(manifestJSON, &manifest)`. -/
  jsonUnmarshal : String → Except String Manifest

/-- A `less` argument that is a strict weak ordering, which `sort.Slice` requires. -/
def StrictWeak {α : Type} (less : α → α → Bool) : Prop :=
  (∀ a b, less a b = true → less b a = false) ∧
  (∀ a b c, less a b = false → less b c = false → less a c = false)

/-- The documented contract of `sort.Slice`: it only swaps elements, so the result
is a rearrangement of the argument, and for a strict weak ordering no element is
`less` than one placed before it. -/
def SortSliceSpec (sortSlice : (VersionPtr → VersionPtr → Bool) → List VersionPtr → List VersionPtr) :
    Prop :=
  ∀ less l, (sortSlice less l).Perm l ∧
    (StrictWeak less → (sortSlice less l).Pairwise (fun a b => less b a = false))

/-! ## `Version.matchTags` (lines 160-173) -/

/-- The inner loop of `matchTags`: the tags of the version against one pattern. -/
def matchTagsInner (filepathMatch : String → String → Except String Bool) (pattern : String) :
    List String → Bool
  | [] => false
  | tag :: rest =>
    match filepathMatch pattern tag with
    | .error _ => matchTagsInner filepathMatch pattern rest
    | .ok matched => if matched then true else matchTagsInner filepathMatch pattern rest

/-- The method `(v *Version) matchTags(patterns)`. -/
def matchTags (filepathMatch : String → String → Except String Bool) (v : Version) :
    List String → Bool
  | [] => false
  | pattern :: rest =>
    if matchTagsInner filepathMatch pattern v.Tags then true
    else matchTags filepathMatch v rest

/-! ## The standard library's `filepath.Match`

The matcher of Go's `path/filepath` for a `/` separator.  A Go string is its
bytes: `bytesOf` gives the UTF-8 encoding of a Lean string and `decodeRune` is
`utf8.DecodeRuneInString`.  The loops that consume the pattern run on a counter
started above the pattern's length, which they never exhaust
(`filepathMatch_fuel` below): a larger start gives the same answer. -/

/-- The error `filepath.ErrBadPattern`. -/
def errBadPattern : String := "syntax error in pattern"

/-- The UTF-8 encoding of one code point. -/
def utf8Encode (c : Char) : List Nat :=
  if c.toNat < 0x80 then [c.toNat]
  else if c.toNat < 0x800 then [0xC0 + c.toNat / 64, 0x80 + c.toNat % 64]
  else if c.toNat < 0x10000 then
    [0xE0 + c.toNat / 4096, 0x80 + c.toNat / 64 % 64, 0x80 + c.toNat % 64]
  else
    [0xF0 + c.toNat / 262144, 0x80 + c.toNat / 4096 % 64, 0x80 + c.toNat / 64 % 64,
      0x80 + c.toNat % 64]

/-- The bytes of a string. -/
def bytesOf (s : String) : List Nat := s.data.flatMap utf8Encode

/-- The rune `utf8.RuneError`. -/
def runeError : Nat := 0xFFFD

/-- Go's `utf8.DecodeRuneInString`: the first rune of the bytes and its width, the
pair `(RuneError, 1)` when the bytes do not start with a well-formed encoding. -/
def decodeRune : List Nat → Nat × Nat
  | [] => (runeError, 0)
  | s0 :: rest =>
    if s0 < 0x80 then (s0, 1)
    else if s0 < 0xC2 then (runeError, 1)
    else if s0 < 0xE0 then
      match rest with
      | s1 :: _ =>
        if 0x80 ≤ s1 ∧ s1 ≤ 0xBF then (s0 % 32 * 64 + s1 % 64, 2) else (runeError, 1)
      | [] => (runeError, 1)
    else if s0 < 0xF0 then
      match rest with
      | s1 :: s2 :: _ =>
        if (if s0 = 0xE0 then 0xA0 else 0x80) ≤ s1 ∧ s1 ≤ (if s0 = 0xED then 0x9F else 0xBF) then
          if 0x80 ≤ s2 ∧ s2 ≤ 0xBF then ((s0 % 16 * 64 + s1 % 64) * 64 + s2 % 64, 3)
          else (runeError, 1)
        else (runeError, 1)
      | _ => (runeError, 1)
    else if s0 < 0xF5 then
      match rest with
      | s1 :: s2 :: s3 :: _ =>
        if (if s0 = 0xF0 then 0x90 else 0x80) ≤ s1 ∧ s1 ≤ (if s0 = 0xF4 then 0x8F else 0xBF) then
          if 0x80 ≤ s2 ∧ s2 ≤ 0xBF then
            if 0x80 ≤ s3 ∧ s3 ≤ 0xBF then
              (((s0 % 8 * 64 + s1 % 64) * 64 + s2 % 64) * 64 + s3 % 64, 4)
            else (runeError, 1)
          else (runeError, 1)
        else (runeError, 1)
      | _ => (runeError, 1)
    else (runeError, 1)

/-- Go's `getEsc`: a possibly escaped rune of a character class, and the rest. -/
def getEsc : List Nat → Except String (Nat × List Nat)
  | [] => .error errBadPattern
  | c :: rest =>
    if c = Char.toNat '-' ∨ c = Char.toNat ']' then .error errBadPattern
    else if c = Char.toNat '\\' ∧ rest = [] then .error errBadPattern
    else
      let chunk := if c = Char.toNat '\\' then rest else c :: rest
      let d := decodeRune chunk
      let nchunk := chunk.drop d.2
      if (d.1 = runeError ∧ d.2 = 1) ∨ nchunk = [] then .error errBadPattern
      else .ok (d.1, nchunk)

/-- The loop `parse all ranges` of Go's `matchChunk`, for the rune `r` read from
the name: whether a range held `r`, and the chunk after the closing bracket. -/
def classLoop (r : Nat) : Nat → List Nat → Bool → Nat → Except String (Bool × List Nat)
  | 0, _, _, _ => .error errBadPattern
  | fuel + 1, chunk, isMatch, nrange =>
    if chunk.head? = some (Char.toNat ']') ∧ nrange > 0 then .ok (isMatch, chunk.tail)
    else
      match getEsc chunk with
      | .error err => .error err
      | .ok (lo, chunk1) =>
        if chunk1.head? = some (Char.toNat '-') then
          match getEsc chunk1.tail with
          | .error err => .error err
          | .ok (hi, chunk2) =>
            classLoop r fuel chunk2 (isMatch || (decide (lo ≤ r) && decide (r ≤ hi))) (nrange + 1)
        else
          classLoop r fuel chunk1 (isMatch || (decide (lo ≤ r) && decide (r ≤ lo))) (nrange + 1)

/-- Go's `matchChunk`, from the state `(chunk, s, failed)` of its loop: an error,
or `some rest` when the chunk matches a prefix of `s`, or `none`. -/
def matchChunkLoop : Nat → List Nat → List Nat → Bool → Except String (Option (List Nat))
  | 0, _, _, _ => .error errBadPattern
  | fuel + 1, chunk, s, failed =>
    match chunk with
    | [] => if failed then .ok none else .ok (some s)
    | c :: chunk1 =>
      let failed := failed || s.isEmpty
      if c = Char.toNat '[' then
        let r := if failed then 0 else (decodeRune s).1
        let s1 := if failed then s else s.drop (decodeRune s).2
        let negated := decide (chunk1.head? = some (Char.toNat '^'))
        let chunk2 := if negated then chunk1.tail else chunk1
        match classLoop r (chunk2.length + 1) chunk2 false 0 with
        | .error err => .error err
        | .ok (isMatch, chunk3) =>
          matchChunkLoop fuel chunk3 s1 (failed || (isMatch == negated))
      else if c = Char.toNat '?' then
        if failed then matchChunkLoop fuel chunk1 s true
        else
          matchChunkLoop fuel chunk1 (s.drop (decodeRune s).2)
            (decide (s.head? = some (Char.toNat '/')))
      else if c = Char.toNat '\\' then
        match chunk1 with
        | [] => .error errBadPattern
        | d :: chunk2 =>
          if failed then matchChunkLoop fuel chunk2 s true
          else matchChunkLoop fuel chunk2 s.tail (decide (s.head? ≠ some d))
      else
        if failed then matchChunkLoop fuel chunk1 s true
        else matchChunkLoop fuel chunk1 s.tail (decide (s.head? ≠ some c))

/-- Go's `matchChunk(chunk, s)`. -/
def matchChunk (chunk s : List Nat) : Except String (Option (List Nat)) :=
  matchChunkLoop (chunk.length + 1) chunk s false

/-- The leading stars of a pattern removed: whether there was one, and the rest. -/
def dropStars : List Nat → Bool × List Nat
  | [] => (false, [])
  | c :: rest => if c = Char.toNat '*' then (true, (dropStars rest).2) else (false, c :: rest)

/-- The `Scan` loop of Go's `scanChunk`: the chunk up to the first star outside a
character class, and what follows it. -/
def scanLoop : Bool → List Nat → List Nat × List Nat
  | _, [] => ([], [])
  | inrange, c :: rest =>
    if c = Char.toNat '\\' then
      match rest with
      | [] => ([c], [])
      | d :: rest2 => let r := scanLoop inrange rest2; (c :: d :: r.1, r.2)
    else if c = Char.toNat '[' then let r := scanLoop true rest; (c :: r.1, r.2)
    else if c = Char.toNat ']' then let r := scanLoop false rest; (c :: r.1, r.2)
    else if c = Char.toNat '*' then
      if inrange then let r := scanLoop inrange rest; (c :: r.1, r.2)
      else ([], c :: rest)
    else let r := scanLoop inrange rest; (c :: r.1, r.2)

/-- Go's `scanChunk(pattern)`: `(star, chunk, rest)`. -/
def scanChunk (pattern : List Nat) : Bool × List Nat × List Nat :=
  let d := dropStars pattern
  let r := scanLoop false d.2
  (d.1, r.1, r.2)

/-- The loop of `Match` that retries the chunk after skipping `i + 1` bytes of the
name, none of them a separator: `some t` is `continue Pattern` with `name = t`,
`none` is the fall through to `return false, nil`. -/
def starLoop (chunk : List Nat) (lastChunk : Bool) :
    List Nat → Except String (Option (List Nat))
  | [] => .ok none
  | c :: rest =>
    if c = Char.toNat '/' then .ok none
    else
      match matchChunk chunk rest with
      | .error err => .error err
      | .ok (some t) =>
        if lastChunk && !t.isEmpty then starLoop chunk lastChunk rest else .ok (some t)
      | .ok none => starLoop chunk lastChunk rest

/-- The `Pattern` loop of `Match`. -/
def matchLoop : Nat → List Nat → List Nat → Except String Bool
  | 0, _, _ => .error errBadPattern
  | fuel + 1, pattern, name =>
    if pattern.isEmpty then .ok name.isEmpty
    else
      let sc := scanChunk pattern
      let star := sc.1
      let chunk := sc.2.1
      let pattern := sc.2.2
      if star && chunk.isEmpty then .ok (!name.contains (Char.toNat '/'))
      else
        match matchChunk chunk name with
        | .error err => .error err
        | .ok res =>
          let direct : Option (List Nat) :=
            match res with
            | some t => if t.isEmpty || !pattern.isEmpty then some t else none
            | none => none
          match direct with
          | some t => matchLoop fuel pattern t
          | none =>
            if star then
              match starLoop chunk pattern.isEmpty name with
              | .error err => .error err
              | .ok (some t) => matchLoop fuel pattern t
              | .ok none => .ok false
            else .ok false

/-- Go's `filepath.Match(pattern, name)`. -/
def filepathMatch (pattern name : String) : Except String Bool :=
  matchLoop ((bytesOf pattern).length + 1) (bytesOf pattern) (bytesOf name)

/-! ## `Version.getDeps` (lines 188-207) -/

/-- The method `(v *Version) getDeps()`. -/
def getDeps (env : Env) (v : VersionPtr) : Except String (List String) :=
  if v.2.Tags.length > 0 then
    let repository := v.2.Pkg.Owner ++ "/" ++ v.2.Pkg.Name
    match env.getManifest v.1 repository v.2.Digest with
    | .error err => .error err
    | .ok manifestJSON =>
      match env.jsonUnmarshal manifestJSON with
      | .error err => .error err
      | .ok manifest => .ok (manifest.Manifests.map (fun m => m.Digest))
  else
    .ok []

/-! ## The body of the package loop of `run` (lines 425-502) -/

/-- A `map[string]bool`, read with the zero value `false` for an absent key. -/
abbrev DepMap := String → Bool

/-- The assignment `m[dep] = true`. -/
def DepMap.set (m : DepMap) (dep : String) : DepMap :=
  fun key => if key = dep then true else m key

/-- Lines 429-436, the `tagged` slice. -/
def taggedOf (ptrs : List VersionPtr) : List VersionPtr :=
  ptrs.filter (fun version => decide (version.2.Tags.length > 0))

/-- Lines 429-436, the `untagged` slice. -/
def untaggedOf (ptrs : List VersionPtr) : List VersionPtr :=
  ptrs.filter (fun version => !decide (version.2.Tags.length > 0))

/-- The test of lines 445-452: the version is appended to `sortableList`. -/
def isCandidate (env : Env) (filterTags skipTags : List String) (version : VersionPtr) : Bool :=
  if decide (skipTags.length > 0) && matchTags env.filepathMatch version.2 skipTags then false
  else if decide (filterTags.length > 0) && !matchTags env.filepathMatch version.2 filterTags then
    false
  else true

/-- Lines 442-453, `sortableList` before sorting. -/
def sortableOf (env : Env) (filterTags skipTags : List String) (tagged : List VersionPtr) :
    List VersionPtr :=
  tagged.filter (isCandidate env filterTags skipTags)

/-- The `less` closure of lines 455-457. -/
def dateAfter (a b : VersionPtr) : Bool := decide (a.2.Date > b.2.Date)

/-- Lines 458-462: the loop over the sorted list, `count` being the index reached. -/
def overCap (keepAtMost : Int) : Nat → List VersionPtr → List VersionPtr
  | _, [] => []
  | count, version :: rest =>
    if (count : Int) ≥ keepAtMost then version :: overCap keepAtMost (count + 1) rest
    else overCap keepAtMost (count + 1) rest

/-- Lines 464-477: `newTagged`, the tagged versions whose `ID` is the `ID` of no unwanted one. -/
def removeUnwanted (unwanted tagged : List VersionPtr) : List VersionPtr :=
  tagged.filter (fun version => !unwanted.any (fun uv => decide (uv.2.ID = version.2.ID)))

/-- State of the loop of lines 484-493: the map, and the versions `getDeps` was called on. -/
structure DepState where
  tagDependencies : DepMap
  getDepsCalls : List VersionPtr

/-- Lines 484-493. -/
def buildDependencies (env : Env) : List VersionPtr → DepState → DepState
  | [], st => st
  | version :: rest, st =>
    match getDeps env version with
    | .error _ =>
      buildDependencies env rest { st with getDepsCalls := st.getDepsCalls ++ [version] }
    | .ok deps =>
      buildDependencies env rest
        { tagDependencies := deps.foldl DepMap.set st.tagDependencies
          getDepsCalls := st.getDepsCalls ++ [version] }

/-- Lines 495-499. -/
def collectUntagged (tagDependencies : DepMap) (untagged : List VersionPtr) : List VersionPtr :=
  untagged.filter (fun version => !tagDependencies version.2.Digest)

/-- The variables of one iteration of the package loop when it reaches line 501. -/
structure PackageDecision where
  tagged : List VersionPtr
  untagged : List VersionPtr
  recency : List VersionPtr
  unwanted : List VersionPtr
  tagDependencies : DepMap
  getDepsCalls : List VersionPtr

/-- Lines 425-500 for one package whose `getVersions` call returned `versions`;
`recency` is the value of `unwanted` at line 478. -/
def runPackage (env : Env) (keepAtMost : Int) (filterTags skipTags : List String)
    (deleteUntagged : Bool) (versions : List Version) : PackageDecision :=
  let tagged := taggedOf versions.enum
  let untagged := untaggedOf versions.enum
  let recency :=
    if keepAtMost > 0 then
      overCap keepAtMost 0 (env.sortSlice dateAfter (sortableOf env filterTags skipTags tagged))
    else []
  let tagged := if keepAtMost > 0 then removeUnwanted recency tagged else tagged
  let deps :=
    if deleteUntagged then buildDependencies env tagged ⟨fun _ => false, []⟩
    else ⟨fun _ => false, []⟩
  let unwanted :=
    if deleteUntagged then recency ++ collectUntagged deps.tagDependencies untagged
    else recency
  { tagged := tagged, untagged := untagged, recency := recency, unwanted := unwanted,
    tagDependencies := deps.tagDependencies, getDepsCalls := deps.getDepsCalls }

/-- Lines 481-500: what the dependency pass appends to `unwanted`. -/
def untaggedPart (d : PackageDecision) (deleteUntagged : Bool) : List VersionPtr :=
  if deleteUntagged then collectUntagged d.tagDependencies d.untagged else []

/-- The function `run`, given what `getAllPackages` returned and what `getVersions`
returns for each package: the concatenation of the per-package `unwanted` lists. -/
def run (env : Env) (allPackages : Except String (List Package))
    (getVersions : Package → Except String (List Version)) (keepAtMost : Int)
    (filterTags skipTags : List String) (deleteUntagged : Bool) :
    Except String (List VersionPtr) :=
  match allPackages with
  | .error err => .error err
  | .ok packages =>
    .ok (packages.foldl (fun unwantedVersions pkg =>
      match getVersions pkg with
      | .error _ => unwantedVersions
      | .ok versions =>
        unwantedVersions ++
          (runPackage env keepAtMost filterTags skipTags deleteUntagged versions).unwanted) [])

/-! ## `Version.delete` and `bulkDelete` (lines 209-231, 508-526) -/

/-- A `url.Values`, as the list of its keys with their values. -/
abbrev Values := List (String × List String)

/-- The method `Values.Set(key, value)`. -/
def Values.set (params : Values) (key value : String) : Values :=
  (params.filter (fun kv => kv.1 ≠ key)) ++ [(key, [value])]

/-- What the program reads of an `*http.Response`: status code, status line, body
and the `Link` header (empty when the header is absent). -/
structure Response where
  StatusCode : Nat
  Status : String
  Body : String
  Link : String
deriving DecidableEq, Repr

/-- The function `requestGithubAPI(relativeURL, method, params, nil)`, as the
answer of the API to a request. -/
abbrev GithubAPI := String → String → Option Values → Except String Response

/-- What one call of `delete` does: the returned error (`none` is `nil`), the text
it prints, and the requests it sends. -/
structure DeleteOutcome where
  err : Option String
  stdout : List String
  requests : List (String × String)
deriving DecidableEq, Repr

/-- The method `(v *Version) delete()`, under the global `DRY_RUN`. -/
def delete (DRY_RUN : Bool) (requestGithubAPI : GithubAPI) (v : Version) : DeleteOutcome :=
  let banner := "Deleting " ++ v.Digest ++ ": "
  if DRY_RUN then
    { err := none, stdout := [banner, "Dry Run\n"], requests := [] }
  else
    match requestGithubAPI v.URL "DELETE" none with
    | .error err =>
      { err := some err, stdout := [banner, err ++ "\n"], requests := [(v.URL, "DELETE")] }
    | .ok resp =>
      if resp.StatusCode = 204 then
        { err := none, stdout := [banner, "OK\n"], requests := [(v.URL, "DELETE")] }
      else
        { err := some ("Failed to delete: " ++ resp.Status)
          stdout := [banner, "Error: " ++ resp.Status ++ ", " ++ resp.Body ++ "\n"]
          requests := [(v.URL, "DELETE")] }

/-- The variables of `bulkDelete`, with the text printed and the requests sent so far. -/
structure BulkState where
  successCount : Nat
  errorCount : Nat
  stdout : List String
  requests : List (String × String)
deriving DecidableEq, Repr

/-- Lines 511-518, the loop of `bulkDelete`; `api i` is the answer of the API to the
request of the call of `delete` made at position `i` of the list. -/
def bulkDeleteLoop (DRY_RUN : Bool) (api : Nat → GithubAPI) :
    Nat → List VersionPtr → BulkState → BulkState
  | _, [], st => st
  | i, version :: rest, st =>
    let o := delete DRY_RUN (api i) version.2
    match o.err with
    | some _ =>
      bulkDeleteLoop DRY_RUN api (i + 1) rest
        { st with errorCount := st.errorCount + 1, stdout := st.stdout ++ o.stdout,
                  requests := st.requests ++ o.requests }
    | none =>
      bulkDeleteLoop DRY_RUN api (i + 1) rest
        { st with successCount := st.successCount + 1, stdout := st.stdout ++ o.stdout,
                  requests := st.requests ++ o.requests }

/-- The state of `bulkDelete` when its loop ends (line 518). -/
def bulkDeleteState (DRY_RUN : Bool) (api : Nat → GithubAPI)
    (deleteList : List VersionPtr) : BulkState :=
  bulkDeleteLoop DRY_RUN api 0 deleteList ⟨0, 0, [], []⟩

/-- The function `bulkDelete(deleteList)`: the returned exit code. -/
def bulkDelete (DRY_RUN : Bool) (api : Nat → GithubAPI) (deleteList : List VersionPtr) : Int :=
  if (bulkDeleteState DRY_RUN api deleteList).errorCount > 0 then 1 else 0

/-- What the call of `delete` at position `iv.1` of the list, on the version `iv.2`,
does. -/
def deleteAt (DRY_RUN : Bool) (api : Nat → GithubAPI) (iv : Nat × VersionPtr) : DeleteOutcome :=
  delete DRY_RUN (api iv.1) iv.2.2

/-! ## `parseNextLink` (lines 135-149) -/

/-- `strings.Split(s, sep)` for a separator `sep` of one character. -/
def splitOnChar (sep : Char) : List Char → List (List Char)
  | [] => [[]]
  | c :: rest =>
    if c = sep then [] :: splitOnChar sep rest
    else
      match splitOnChar sep rest with
      | [] => [[c]]
      | piece :: pieces => (c :: piece) :: pieces

/-- `unicode.IsSpace`. -/
def isSpace (c : Char) : Bool :=
  c = '\t' || c = '\n' || c.toNat = 0x0B || c.toNat = 0x0C || c = '\r' || c = ' ' ||
  c.toNat = 0x85 || c.toNat = 0xA0 || c.toNat = 0x1680 ||
  (decide (0x2000 ≤ c.toNat) && decide (c.toNat ≤ 0x200A)) ||
  c.toNat = 0x2028 || c.toNat = 0x2029 || c.toNat = 0x202F || c.toNat = 0x205F ||
  c.toNat = 0x3000

/-- Removal of the leading and trailing characters that satisfy `p`. -/
def trimFunc (p : Char → Bool) (s : List Char) : List Char :=
  ((s.dropWhile p).reverse.dropWhile p).reverse

/-- `strings.TrimSpace`. -/
def trimSpace (s : List Char) : List Char := trimFunc isSpace s

/-- `strings.Trim(s, cutset)`. -/
def trimCutset (cutset : List Char) (s : List Char) : List Char :=
  trimFunc (fun c => cutset.contains c) s

/-- Lines 137-148, the loop of `parseNextLink` over the pieces of the header. -/
def parseNextLinkLoop : List (List Char) → List Char
  | [] => []
  | link :: links =>
    match splitOnChar ';' (trimSpace link) with
    | part0 :: part1 :: _ =>
      let urlPart := trimCutset ['<', '>'] part0
      let relPart := trimSpace part1
      if relPart = "rel=\"next\"".data then urlPart else parseNextLinkLoop links
    | _ => parseNextLinkLoop links

/-- The function `parseNextLink(linkHeader)`. -/
def parseNextLink (linkHeader : String) : String :=
  ⟨parseNextLinkLoop (splitOnChar ',' linkHeader.data)⟩

/-! ## Pagination in `Package.getVersions` and `getAllPackages` (lines 260-377) -/

/-- VersionData, the decoded JSON record of a version. -/
structure VersionData where
  ID : Int
  Name : String
  URL : String
  UpdatedAt : String
  Tags : List String
deriving DecidableEq, Repr

/-- PackageData, the decoded JSON record of a package. -/
structure PackageData where
  Name : String
  URL : String
  RepositoryName : String
deriving DecidableEq, Repr

/-- The calls of the two listing functions that leave the program. -/
structure ListEnv where
  requestGithubAPI : GithubAPI
  /-- `json.NewDecoder(resp.Body).Decode(&versionDatas)`. -/
  decodeVersionDatas : String → Except String (List VersionData)
  /-- `json.NewDecoder(resp.Body).Decode(&packageDatas)`. -/
  decodePackageDatas : String → Except String (List PackageData)
  /-- `time.Parse(time.RFC3339, s)`. -/
  timeParse : String → Except String Int
  /-- `url.Parse(s)`, read through `u.Path` and `u.Query()`. -/
  urlParse : String → Except String (String × Values)
  /-- `strings.ToLower`. -/
  toLower : String → String

/-- How one turn of a pagination loop ends: with a `return`, or at `continue` with
the next request. -/
inductive PageStep (α : Type) where
  | done (result : Except String (List α))
  | next (acc : List α) (urlPath : String) (params : Values)
deriving DecidableEq, Repr

/-- The constant `PER_PAGE`. -/
def PER_PAGE : Nat := 100

/-- Lines 286-300: the records of one page appended to `versions`. -/
def appendVersions (env : ListEnv) (p : Package) :
    List VersionData → List Version → Except String (List Version)
  | [], versions => .ok versions
  | vd :: rest, versions =>
    match env.timeParse vd.UpdatedAt with
    | .error err => .error err
    | .ok date =>
      appendVersions env p rest
        (versions ++ [{ ID := vd.ID, Digest := vd.Name, Date := date, Tags := vd.Tags,
                        URL := vd.URL, Pkg := p }])

/-- Lines 302-315 and 361-374: the end of a turn, from the `Link` header. -/
def followLink {α : Type} (env : ListEnv) (acc : List α) (linkHeader : String) : PageStep α :=
  if linkHeader ≠ "" then
    let nextURL := parseNextLink linkHeader
    if nextURL ≠ "" then
      match env.urlParse nextURL with
      | .error err => .done (.error err)
      | .ok u => .next acc u.1 u.2
    else .done (.ok acc)
  else .done (.ok acc)

/-- Lines 269-315: one turn of the loop of `getVersions`. -/
def getVersionsPage (env : ListEnv) (p : Package) (versions : List Version)
    (urlPath : String) (params : Values) : PageStep Version :=
  match env.requestGithubAPI urlPath "GET" (some params) with
  | .error err => .done (.error err)
  | .ok resp =>
    if resp.StatusCode ≠ 200 then
      .done (.error ("GitHub API error: " ++ resp.Status ++ ", " ++ resp.Body))
    else
      match env.decodeVersionDatas resp.Body with
      | .error err => .done (.error err)
      | .ok versionDatas =>
        match appendVersions env p versionDatas versions with
        | .error err => .done (.error err)
        | .ok versions => followLink env versions resp.Link

/-- The loop of `getVersions`, for at most `fuel` pages; `none` when more remain. -/
def getVersionsLoop (env : ListEnv) (p : Package) :
    Nat → List Version → String → Values → Option (Except String (List Version))
  | 0, _, _, _ => none
  | fuel + 1, versions, urlPath, params =>
    match getVersionsPage env p versions urlPath params with
    | .done result => some result
    | .next versions urlPath params => getVersionsLoop env p fuel versions urlPath params

/-- The method `(p *Package) getVersions()`. -/
def getVersions (env : ListEnv) (fuel : Nat) (p : Package) :
    Option (Except String (List Version)) :=
  getVersionsLoop env p fuel [] p.VersionURL (Values.set [] "per_page" (toString PER_PAGE))

/-- Lines 345-359: the records of one page filtered and appended to `packages`. -/
def appendPackages (env : ListEnv) (ownerType owner repoName packageName : String) :
    List PackageData → List Package → List Package
  | [], packages => packages
  | pd :: rest, packages =>
    if repoName ≠ "" ∧ env.toLower pd.RepositoryName ≠ env.toLower repoName then
      appendPackages env ownerType owner repoName packageName rest packages
    else if packageName ≠ "" ∧ pd.Name ≠ packageName then
      appendPackages env ownerType owner repoName packageName rest packages
    else
      appendPackages env ownerType owner repoName packageName rest
        (packages ++ [{ Name := pd.Name, VersionURL := pd.URL ++ "/versions", Owner := owner,
                        OwnerType := ownerType }])

/-- Lines 328-374: one turn of the loop of `getAllPackages`. -/
def getAllPackagesPage (env : ListEnv) (ownerType owner repoName packageName : String)
    (packages : List Package) (path : String) (params : Values) : PageStep Package :=
  match env.requestGithubAPI path "GET" (some params) with
  | .error err => .done (.error err)
  | .ok resp =>
    if resp.StatusCode ≠ 200 then
      .done (.error ("GitHub API error: " ++ resp.Status ++ ", " ++ resp.Body))
    else
      match env.decodePackageDatas resp.Body with
      | .error err => .done (.error err)
      | .ok packageDatas =>
        followLink env
          (appendPackages env ownerType owner repoName packageName packageDatas packages)
          resp.Link

/-- The loop of `getAllPackages`, for at most `fuel` pages; `none` when more remain. -/
def getAllPackagesLoop (env : ListEnv) (ownerType owner repoName packageName : String) :
    Nat → List Package → String → Values → Option (Except String (List Package))
  | 0, _, _, _ => none
  | fuel + 1, packages, path, params =>
    match getAllPackagesPage env ownerType owner repoName packageName packages path params with
    | .done result => some result
    | .next packages path params =>
      getAllPackagesLoop env ownerType owner repoName packageName fuel packages path params

/-- The function `getAllPackages(ownerType, owner, repoName, packageName)`. -/
def getAllPackages (env : ListEnv) (fuel : Nat) (ownerType owner repoName packageName : String) :
    Option (Except String (List Package)) :=
  getAllPackagesLoop env ownerType owner repoName packageName fuel []
    ("/" ++ ownerType ++ "s/" ++ owner ++ "/packages")
    (Values.set (Values.set [] "per_page" (toString PER_PAGE)) "package_type" "container")

/-- The versions of the input that `run` does not return: the spec's `kept`. -/
def keptOf (versions : List Version) (unwanted : List VersionPtr) : List VersionPtr :=
  versions.enum.filter (fun p => decide (p ∉ unwanted))

/-! ## The shape of a `Link` header -/

/-- One entry `<u>; rel="r"` of a `Link` header, written after `pad` blanks. -/
structure LinkEntry where
  pad : Nat
  u : String
  r : String
deriving DecidableEq, Repr

/-- The characters of the entry: the blanks, then `<u>; rel="r"`. -/
def LinkEntry.render (e : LinkEntry) : List Char :=
  List.replicate e.pad ' ' ++
    ('<' :: (e.u.data ++ '>' :: ';' :: ' ' :: 'r' :: 'e' :: 'l' :: '=' :: '"' :: (e.r.data ++ ['"'])))

/-- The entries written one after the other with a comma between two of them. -/
def renderEntries : List LinkEntry → List Char
  | [] => []
  | e :: es =>
    match es with
    | [] => e.render
    | _ :: _ => e.render ++ ',' :: renderEntries es

/-- The header value made of the entries. -/
def linkHeaderOf (entries : List LinkEntry) : String := ⟨renderEntries entries⟩

/-- The `u` of the first entry whose `r` is `next`, the empty string when there is none. -/
def firstNext : List LinkEntry → String
  | [] => ""
  | e :: es => if e.r = "next" then e.u else firstNext es

/-- The `u` of the entry holds none of `<`, `>`, `,`, `;`. -/
def LinkEntry.urlClean (e : LinkEntry) : Bool :=
  e.u.data.all (fun c => c != '<' && c != '>' && c != ',' && c != ';')

/-- The `r` of the entry holds none of `,`, `;`. -/
def LinkEntry.relPlain (e : LinkEntry) : Bool :=
  e.r.data.all (fun c => c != ',' && c != ';')

/-- The `r` of the entry holds no `"`. -/
def LinkEntry.relQuoteFree (e : LinkEntry) : Bool :=
  e.r.data.all (fun c => c != '"')

/-- The `r` of the entry is a value written between quotes: it holds no `"` (it may
then hold `,` and `;`), or it holds neither `,` nor `;`. -/
def LinkEntry.relClean (e : LinkEntry) : Bool :=
  e.relQuoteFree || e.relPlain

/-! ## A concrete environment -/

/-- Insertion of `x` before the first element it is `less` than. -/
def insertLess {α : Type} (less : α → α → Bool) (x : α) : List α → List α
  | [] => [x]
  | y :: ys => if less x y then x :: y :: ys else y :: insertLess less x ys

/-- An insertion sort, one function that meets the contract of `sort.Slice`. -/
def insertionSortLess {α : Type} (less : α → α → Bool) : List α → List α
  | [] => []
  | x :: xs => insertLess less x (insertionSortLess less xs)

/-- A registry that serves one manifest list, for digest `sha-v1`, whose body names
the child digests `dA` and `dC`; any other lookup fails. -/
def demoEnv : Env where
  filepathMatch := filepathMatch
  sortSlice := insertionSortLess
  getManifest := fun _ _ reference =>
    if reference = "sha-v1" then .ok "dA,dC" else .error "Failed to get manifest: 404"
  jsonUnmarshal := fun body =>
    .ok ⟨(splitOnChar ',' body.data).map
      (fun d => ⟨"application/vnd.oci.image.manifest.v1+json", ⟨d⟩, 0⟩)⟩

/-- The package of the examples. -/
def demoPkg : Package := ⟨"app", "/orgs/acme/packages/container/app/versions", "acme", "org"⟩

/-- The version tagged `latest` and `v1`, whose manifest lists `dA`. -/
def demoV1 : Version := ⟨1, "sha-v1", 30, ["latest", "v1"], "/v/1", demoPkg⟩

/-- The older version tagged `v0`, whose manifest lookup fails. -/
def demoV0 : Version := ⟨2, "sha-v0", 20, ["v0"], "/v/2", demoPkg⟩

/-- The untagged version of digest `dA`. -/
def demoA : Version := ⟨3, "dA", 10, [], "/v/3", demoPkg⟩

/-- The untagged version of digest `dB`. -/
def demoB : Version := ⟨4, "dB", 10, [], "/v/4", demoPkg⟩

/-- The scenario of the specification: two tagged versions and two untagged ones. -/
def demoVersions : List Version := [demoV1, demoV0, demoA, demoB]

/-- Two tagged versions that share the id 7, and the untagged `dA`. -/
def sharedIdVersions : List Version :=
  [ ⟨7, "sha-v1", 30, ["v1"], "/v/1", demoPkg⟩,
    ⟨7, "sha-v0", 20, ["v0"], "/v/2", demoPkg⟩,
    ⟨3, "dA", 10, [], "/v/3", demoPkg⟩ ]

/-- Seven tagged versions in strictly decreasing date order. -/
def sevenVersions : List Version :=
  [ ⟨11, "sha-0", 70, ["t0"], "/v/11", demoPkg⟩,
    ⟨12, "sha-1", 60, ["t1"], "/v/12", demoPkg⟩,
    ⟨13, "sha-2", 50, ["t2"], "/v/13", demoPkg⟩,
    ⟨14, "sha-3", 40, ["t3"], "/v/14", demoPkg⟩,
    ⟨15, "sha-4", 30, ["t4"], "/v/15", demoPkg⟩,
    ⟨16, "sha-5", 20, ["t5"], "/v/16", demoPkg⟩,
    ⟨17, "sha-6", 10, ["t6"], "/v/17", demoPkg⟩ ]

/-- A header of three entries, each after the first behind one blank, as the API
sends it. -/
def demoEntries : List LinkEntry :=
  [⟨0, "https://api.github.com/orgs/acme/packages?page=1", "prev"⟩,
   ⟨1, "https://api.github.com/orgs/acme/packages?page=3", "next"⟩,
   ⟨1, "https://api.github.com/orgs/acme/packages?page=5", "last"⟩]

/-- A header whose first two values hold a comma and a semicolon. -/
def listEntries : List LinkEntry :=
  [⟨0, "a", "next,last"⟩, ⟨1, "b", "x;y"⟩, ⟨1, "c", "next"⟩]

/-! ## Lemmas on the loops of `run` -/

theorem overCap_eq_drop (k : Int) (l : List VersionPtr) (c : Nat) :
    overCap k c l = l.drop (k.toNat - c) := by
  induction l generalizing c with
  | nil => simp [overCap]
  | cons v rest ih =>
    unfold overCap
    by_cases h : (c : Int) ≥ k
    · have h0 : k.toNat - c = 0 := by omega
      have h1 : k.toNat - (c + 1) = 0 := by omega
      simp [h, ih, h0, h1]
    · have h1 : k.toNat - c = (k.toNat - (c + 1)) + 1 := by omega
      simp [h, ih]
      rw [h1, List.drop_succ_cons]

theorem enum_nodup (versions : List Version) : versions.enum.Nodup := by
  apply List.Nodup.of_map Prod.fst
  rw [List.enum_map_fst]
  exact List.nodup_range _

theorem mem_taggedOf {ptrs : List VersionPtr} {p : VersionPtr} :
    p ∈ taggedOf ptrs ↔ p ∈ ptrs ∧ p.2.Tags ≠ [] := by
  simp [taggedOf, List.length_pos]

theorem mem_untaggedOf {ptrs : List VersionPtr} {p : VersionPtr} :
    p ∈ untaggedOf ptrs ↔ p ∈ ptrs ∧ p.2.Tags = [] := by
  simp [untaggedOf, List.length_pos]

theorem runPackage_untagged (env : Env) (k : Int) (f s : List String) (du : Bool)
    (versions : List Version) :
    (runPackage env k f s du versions).untagged = untaggedOf versions.enum := rfl

theorem runPackage_recency (env : Env) (k : Int) (f s : List String) (du : Bool)
    (versions : List Version) :
    (runPackage env k f s du versions).recency =
      if k > 0 then
        (env.sortSlice dateAfter (sortableOf env f s (taggedOf versions.enum))).drop k.toNat
      else [] := by
  simp [runPackage, overCap_eq_drop]

theorem runPackage_tagged (env : Env) (k : Int) (f s : List String) (du : Bool)
    (versions : List Version) :
    (runPackage env k f s du versions).tagged =
      if k > 0 then
        removeUnwanted (runPackage env k f s du versions).recency (taggedOf versions.enum)
      else taggedOf versions.enum := rfl

theorem runPackage_unwanted (env : Env) (k : Int) (f s : List String) (du : Bool)
    (versions : List Version) :
    (runPackage env k f s du versions).unwanted =
      (runPackage env k f s du versions).recency ++
        (if du then
          collectUntagged (runPackage env k f s du versions).tagDependencies
            (untaggedOf versions.enum)
        else []) := by
  cases du <;> simp [runPackage]

theorem runPackage_deps (env : Env) (k : Int) (f s : List String)
    (versions : List Version) :
    (runPackage env k f s true versions).tagDependencies =
        (buildDependencies env (runPackage env k f s true versions).tagged
          ⟨fun _ => false, []⟩).tagDependencies ∧
    (runPackage env k f s true versions).getDepsCalls =
        (buildDependencies env (runPackage env k f s true versions).tagged
          ⟨fun _ => false, []⟩).getDepsCalls := by
  simp [runPackage]

theorem foldl_set_true (deps : List String) (m : DepMap) (d : String) :
    (deps.foldl DepMap.set m) d = true ↔ m d = true ∨ d ∈ deps := by
  induction deps generalizing m with
  | nil => simp
  | cons a rest ih =>
    rw [List.foldl_cons, ih]
    by_cases h : d = a
    · simp [DepMap.set, h]
    · simp [DepMap.set, h]

theorem buildDependencies_calls (env : Env) (l : List VersionPtr) (st : DepState) :
    (buildDependencies env l st).getDepsCalls = st.getDepsCalls ++ l := by
  induction l generalizing st with
  | nil => simp [buildDependencies]
  | cons v rest ih =>
    unfold buildDependencies
    cases getDeps env v <;> simp [ih]

theorem buildDependencies_true (env : Env) (l : List VersionPtr) (st : DepState) (d : String) :
    (buildDependencies env l st).tagDependencies d = true ↔
      st.tagDependencies d = true ∨
        ∃ q ∈ l, ∃ deps, getDeps env q = .ok deps ∧ d ∈ deps := by
  induction l generalizing st with
  | nil => simp [buildDependencies]
  | cons v rest ih =>
    unfold buildDependencies
    cases hg : getDeps env v with
    | error e => simp [ih, hg]
    | ok deps =>
      simp only [ih, foldl_set_true, List.mem_cons, exists_eq_or_imp, hg, Except.ok.injEq,
        exists_eq_left']
      tauto

theorem recency_sublist_perm (env : Env) (hs : SortSliceSpec env.sortSlice) (k : Int)
    (f s : List String) (du : Bool) (versions : List Version) :
    ∃ srt : List VersionPtr, srt.Perm (sortableOf env f s (taggedOf versions.enum)) ∧
      (runPackage env k f s du versions).recency.Sublist srt := by
  refine ⟨env.sortSlice dateAfter (sortableOf env f s (taggedOf versions.enum)),
    (hs _ _).1, ?_⟩
  rw [runPackage_recency]
  split
  · exact List.drop_sublist _ _
  · exact List.nil_sublist _

theorem mem_recency (env : Env) (hs : SortSliceSpec env.sortSlice) (k : Int)
    (f s : List String) (du : Bool) (versions : List Version) (p : VersionPtr)
    (hp : p ∈ (runPackage env k f s du versions).recency) :
    p ∈ sortableOf env f s (taggedOf versions.enum) := by
  obtain ⟨srt, hperm, hsub⟩ := recency_sublist_perm env hs k f s du versions
  exact hperm.subset (hsub.subset hp)

theorem mem_sortableOf {env : Env} {f s : List String} {tagged : List VersionPtr}
    {p : VersionPtr} :
    p ∈ sortableOf env f s tagged ↔
      p ∈ tagged ∧ matchTags env.filepathMatch p.2 s = false ∧
        (f = [] ∨ matchTags env.filepathMatch p.2 f = true) := by
  unfold sortableOf isCandidate
  rw [List.mem_filter]
  cases s with
  | nil =>
    cases f with
    | nil => simp [matchTags]
    | cons a f => simp [matchTags]
  | cons b s =>
    cases f with
    | nil => by_cases h : matchTags env.filepathMatch p.2 (b :: s) = true <;> simp [h]
    | cons a f =>
      by_cases h : matchTags env.filepathMatch p.2 (b :: s) = true <;>
        by_cases h2 : matchTags env.filepathMatch p.2 (a :: f) = true <;> simp [h, h2]

theorem recency_nodup (env : Env) (hs : SortSliceSpec env.sortSlice) (k : Int)
    (f s : List String) (du : Bool) (versions : List Version) :
    (runPackage env k f s du versions).recency.Nodup := by
  obtain ⟨srt, hperm, hsub⟩ := recency_sublist_perm env hs k f s du versions
  apply hsub.nodup
  rw [hperm.nodup_iff]
  unfold sortableOf taggedOf
  exact ((enum_nodup versions).filter _).filter _

theorem recency_tagged (env : Env) (hs : SortSliceSpec env.sortSlice) (k : Int)
    (f s : List String) (du : Bool) (versions : List Version) (p : VersionPtr)
    (hp : p ∈ (runPackage env k f s du versions).recency) :
    p ∈ versions.enum ∧ p.2.Tags ≠ [] := by
  have h := mem_recency env hs k f s du versions p hp
  rw [mem_sortableOf, mem_taggedOf] at h
  exact h.1

/-! ## The insertion sort meets the contract of `sort.Slice` -/

theorem insertLess_perm {α : Type} (less : α → α → Bool) (x : α) (l : List α) :
    (insertLess less x l).Perm (x :: l) := by
  induction l with
  | nil => simp [insertLess]
  | cons y ys ih =>
    unfold insertLess
    split
    · exact List.Perm.refl _
    · exact (List.Perm.cons y ih).trans (List.Perm.swap x y ys)

theorem insertionSortLess_perm {α : Type} (less : α → α → Bool) (l : List α) :
    (insertionSortLess less l).Perm l := by
  induction l with
  | nil => simp [insertionSortLess]
  | cons x xs ih =>
    unfold insertionSortLess
    exact (insertLess_perm less x _).trans (List.Perm.cons x ih)

theorem insertLess_pairwise {α : Type} (less : α → α → Bool) (hw : StrictWeak less) (x : α)
    (l : List α) (hl : l.Pairwise (fun a b => less b a = false)) :
    (insertLess less x l).Pairwise (fun a b => less b a = false) := by
  induction l with
  | nil => simp [insertLess]
  | cons y ys ih =>
    rw [List.pairwise_cons] at hl
    unfold insertLess
    by_cases h : less x y = true
    · simp only [h, if_true]
      refine List.Pairwise.cons ?_ (List.Pairwise.cons hl.1 hl.2)
      intro z hz
      have hyx : less y x = false := hw.1 x y h
      rcases List.mem_cons.1 hz with rfl | hz
      · exact hyx
      · exact hw.2 z y x (hl.1 z hz) hyx
    · have hxy : less x y = false := by simpa using h
      simp only [hxy, Bool.false_eq_true, if_false]
      refine List.Pairwise.cons ?_ (ih hl.2)
      intro z hz
      rcases List.mem_cons.1 ((insertLess_perm less x ys).subset hz) with rfl | hz
      · exact hxy
      · exact hl.1 z hz

theorem insertionSortLess_pairwise {α : Type} (less : α → α → Bool) (hw : StrictWeak less)
    (l : List α) : (insertionSortLess less l).Pairwise (fun a b => less b a = false) := by
  induction l with
  | nil => simp [insertionSortLess]
  | cons x xs ih =>
    unfold insertionSortLess
    exact insertLess_pairwise less hw x _ ih

theorem insertionSortLess_spec : SortSliceSpec insertionSortLess :=
  fun less l => ⟨insertionSortLess_perm less l, fun hw => insertionSortLess_pairwise less hw l⟩

theorem dateAfter_strictWeak : StrictWeak dateAfter := by
  constructor
  · intro a b h
    simp only [dateAfter, decide_eq_true_eq, decide_eq_false_iff_not] at *
    omega
  · intro a b c h1 h2
    simp only [dateAfter, decide_eq_true_eq, decide_eq_false_iff_not] at *
    omega

theorem enum_id_inj (versions : List Version) (hid : (versions.map (fun v => v.ID)).Nodup)
    (p q : VersionPtr) (hp : p ∈ versions.enum) (hq : q ∈ versions.enum)
    (h : p.2.ID = q.2.ID) : p = q := by
  rw [List.mem_enum_iff_getElem?] at hp hq
  have hlt : p.1 < (versions.map (fun v => v.ID)).length := by
    rw [List.length_map]
    exact (List.getElem?_eq_some_iff.1 hp).1
  have hidx : p.1 = q.1 := by
    apply List.getElem?_inj hlt hid
    rw [List.getElem?_map, List.getElem?_map, hp, hq]
    simp [h]
  have hv : p.2 = q.2 := by
    rw [hidx, hq] at hp
    exact (Option.some.inj hp).symm
  exact Prod.ext hidx hv

theorem removeUnwanted_eq_filter (versions : List Version)
    (hid : (versions.map (fun v => v.ID)).Nodup) (unwanted tagged : List VersionPtr)
    (hu : ∀ p ∈ unwanted, p ∈ versions.enum) (ht : ∀ p ∈ tagged, p ∈ versions.enum) :
    removeUnwanted unwanted tagged = tagged.filter (fun q => decide (q ∉ unwanted)) := by
  unfold removeUnwanted
  apply List.filter_congr
  intro q hq
  by_cases hmem : q ∈ unwanted
  · have : unwanted.any (fun uv => decide (uv.2.ID = q.2.ID)) = true :=
      List.any_eq_true.2 ⟨q, hmem, by simp⟩
    simp [this, hmem]
  · have : unwanted.any (fun uv => decide (uv.2.ID = q.2.ID)) = false := by
      rw [Bool.eq_false_iff]
      intro hany
      obtain ⟨uv, huv, he⟩ := List.any_eq_true.1 hany
      have := enum_id_inj versions hid uv q (hu uv huv) (ht q hq) (by simpa using he)
      exact hmem (this ▸ huv)
    simp [this, hmem]

theorem untagged_not_recency (env : Env) (hs : SortSliceSpec env.sortSlice) (k : Int)
    (f s : List String) (du : Bool) (versions : List Version) (p : VersionPtr)
    (hu : p.2.Tags = []) : p ∉ (runPackage env k f s du versions).recency :=
  fun hp => (recency_tagged env hs k f s du versions p hp).2 hu

theorem mem_unwanted_untagged (env : Env) (hs : SortSliceSpec env.sortSlice) (k : Int)
    (f s : List String) (du : Bool) (versions : List Version) (p : VersionPtr)
    (hp : p ∈ versions.enum) (hu : p.2.Tags = []) :
    p ∈ (runPackage env k f s du versions).unwanted ↔
      du = true ∧ ∀ q ∈ (runPackage env k f s du versions).tagged, ∀ deps,
        getDeps env q = .ok deps → p.2.Digest ∉ deps := by
  rw [runPackage_unwanted, List.mem_append]
  have hnr := untagged_not_recency env hs k f s du versions p hu
  cases du with
  | false => simp [hnr]
  | true =>
    have hb := buildDependencies_true env (runPackage env k f s true versions).tagged
      ⟨fun _ => false, []⟩ p.2.Digest
    rw [← (runPackage_deps env k f s versions).1] at hb
    simp only [if_true, collectUntagged, List.mem_filter, mem_untaggedOf, hp, hu, true_and,
      Bool.not_eq_true', hnr, false_or]
    rw [← Bool.not_eq_true, hb]
    simp

theorem sortableOf_nil_nil (env : Env) (tagged : List VersionPtr) :
    sortableOf env [] [] tagged = tagged := by
  unfold sortableOf
  rw [List.filter_eq_self]
  intro p _
  simp [isCandidate]

theorem unwanted_filter_tagged (env : Env) (hs : SortSliceSpec env.sortSlice) (k : Int)
    (f s : List String) (du : Bool) (versions : List Version) :
    (runPackage env k f s du versions).unwanted.filter (fun p => decide (p.2.Tags ≠ [])) =
      (runPackage env k f s du versions).recency := by
  rw [runPackage_unwanted, List.filter_append]
  have h1 : (runPackage env k f s du versions).recency.filter
      (fun p => decide (p.2.Tags ≠ [])) = (runPackage env k f s du versions).recency := by
    rw [List.filter_eq_self]
    intro p hp
    simpa using (recency_tagged env hs k f s du versions p hp).2
  have h2 : (if du = true then collectUntagged (runPackage env k f s du versions).tagDependencies
      (untaggedOf versions.enum) else []).filter (fun p => decide (p.2.Tags ≠ [])) = [] := by
    rw [List.filter_eq_nil_iff]
    intro p hp
    split at hp
    · unfold collectUntagged at hp
      simpa using (mem_untaggedOf.1 (List.mem_filter.1 hp).1).2
    · simp at hp
  rw [h1, h2, List.append_nil]

theorem tagged_mem_unwanted_iff (env : Env) (hs : SortSliceSpec env.sortSlice) (k : Int)
    (f s : List String) (du : Bool) (versions : List Version) (p : VersionPtr)
    (ht : p.2.Tags ≠ []) :
    p ∈ (runPackage env k f s du versions).unwanted ↔
      p ∈ (runPackage env k f s du versions).recency := by
  rw [← unwanted_filter_tagged env hs k f s du versions, List.mem_filter]
  simp [ht]

theorem length_filter_not_mem (l r : List VersionPtr) (hl : l.Nodup) (hr : r.Nodup)
    (hsub : ∀ p ∈ r, p ∈ l) :
    (l.filter (fun p => decide (p ∉ r))).length = l.length - r.length := by
  have h1 := @List.length_eq_length_filter_add _ l (fun p => decide (p ∈ r))
  have h2 : (l.filter (fun p => decide (p ∈ r))).Perm r := by
    rw [List.perm_ext_iff_of_nodup (hl.filter _) hr]
    intro p
    simp only [List.mem_filter, decide_eq_true_eq]
    exact ⟨fun h => h.2, fun h => ⟨hsub p h, h⟩⟩
  have h3 : l.filter (fun p => ! decide (p ∈ r)) = l.filter (fun p => decide (p ∉ r)) := by
    apply List.filter_congr
    intro p _
    simp
  rw [h3, h2.length_eq] at h1
  omega

theorem sorted_unique (srt l : List VersionPtr) (hperm : srt.Perm l)
    (hsrt : srt.Pairwise (fun a b => dateAfter b a = false))
    (hl : l.Pairwise (fun a b => a.2.Date > b.2.Date)) : srt = l := by
  have hne : l.Pairwise (fun a b => a.2.Date ≠ b.2.Date) :=
    hl.imp (fun h => by omega)
  have hinj : ∀ a b, a ∈ l → b ∈ l → a.2.Date = b.2.Date → a = b := by
    intro a b ha hb hab
    by_contra hab'
    have hsymm : Symmetric (fun x y : VersionPtr => x.2.Date ≠ y.2.Date) :=
      fun x y h => Ne.symm h
    exact List.Pairwise.forall hsymm hne ha hb hab' hab
  apply @List.Perm.eq_of_sorted VersionPtr (fun a b => a.2.Date ≥ b.2.Date) srt l _ _ _ hperm
  · intro a b ha hb h1 h2
    exact hinj a b (hperm.subset ha) hb (by omega)
  · exact hsrt.imp (fun h => by simpa [dateAfter] using h)
  · exact hl.imp (fun h => by omega)

theorem run_mem (env : Env) (packages : List Package)
    (getVersions : Package → Except String (List Version)) (k : Int) (f s : List String)
    (du : Bool) (r : List VersionPtr) (h : run env (.ok packages) getVersions k f s du = .ok r)
    (p : VersionPtr) :
    p ∈ r ↔ ∃ pkg ∈ packages, ∃ versions, getVersions pkg = .ok versions ∧
      p ∈ (runPackage env k f s du versions).unwanted := by
  have hgen : ∀ (pkgs : List Package) (acc : List VersionPtr),
      p ∈ pkgs.foldl (fun unwantedVersions pkg =>
        match getVersions pkg with
        | .error _ => unwantedVersions
        | .ok versions => unwantedVersions ++ (runPackage env k f s du versions).unwanted) acc ↔
      p ∈ acc ∨ ∃ pkg ∈ pkgs, ∃ versions, getVersions pkg = .ok versions ∧
        p ∈ (runPackage env k f s du versions).unwanted := by
    intro pkgs
    induction pkgs with
    | nil => intro acc; simp
    | cons pkg rest ih =>
      intro acc
      rw [List.foldl_cons, ih]
      cases hg : getVersions pkg with
      | error e => simp [hg]
      | ok versions =>
        simp only [List.mem_append, List.mem_cons, exists_eq_or_imp, hg, Except.ok.injEq,
          exists_eq_left']
        tauto
  simp only [run, Except.ok.injEq] at h
  rw [← h, hgen]
  simp

theorem runPackage_tagged_filter (env : Env) (hs : SortSliceSpec env.sortSlice) (k : Int)
    (f s : List String) (du : Bool) (versions : List Version)
    (hid : (versions.map (fun v => v.ID)).Nodup) :
    (runPackage env k f s du versions).tagged =
      (taggedOf versions.enum).filter (fun q => decide (q ∉
        (runPackage env k f s du versions).recency)) := by
  rw [runPackage_tagged]
  split
  · exact removeUnwanted_eq_filter versions hid _ _
      (fun p hp => (recency_tagged env hs _ _ _ du versions p hp).1)
      (fun p hp => (mem_taggedOf.1 hp).1)
  · rename_i hk
    have : (runPackage env k f s du versions).recency = [] := by
      rw [runPackage_recency]
      simp [hk]
    simp [this]

theorem mem_runPackage_tagged (env : Env) (hs : SortSliceSpec env.sortSlice) (k : Int)
    (f s : List String) (du : Bool) (versions : List Version)
    (hid : (versions.map (fun v => v.ID)).Nodup) (q : VersionPtr) :
    q ∈ (runPackage env k f s du versions).tagged ↔
      q ∈ versions.enum ∧ q.2.Tags ≠ [] ∧ q ∉ (runPackage env k f s du versions).unwanted := by
  rw [runPackage_tagged_filter env hs k f s du versions hid, List.mem_filter, mem_taggedOf]
  constructor
  · rintro ⟨⟨h1, h2⟩, h3⟩
    refine ⟨h1, h2, ?_⟩
    rw [tagged_mem_unwanted_iff env hs k f s du versions q h2]
    simpa using h3
  · rintro ⟨h1, h2, h3⟩
    rw [tagged_mem_unwanted_iff env hs k f s du versions q h2] at h3
    exact ⟨⟨h1, h2⟩, by simpa using h3⟩

/-! ## The retention decision -/

/-- C6: the unwanted list of a package holds only pointers into the input, holds
none twice, is the recency part (all tagged) followed by the untagged part (all
untagged), and together with the kept versions rearranges the input. -/
theorem partition_unwanted (env : Env) (hs : SortSliceSpec env.sortSlice) (keepAtMost : Int)
    (filterTags skipTags : List String) (deleteUntagged : Bool) (versions : List Version) :
    (∀ p ∈ (runPackage env keepAtMost filterTags skipTags deleteUntagged versions).unwanted,
        p ∈ versions.enum) ∧
    (runPackage env keepAtMost filterTags skipTags deleteUntagged versions).unwanted.Nodup ∧
    (runPackage env keepAtMost filterTags skipTags deleteUntagged versions).unwanted =
      (runPackage env keepAtMost filterTags skipTags deleteUntagged versions).recency ++
        untaggedPart (runPackage env keepAtMost filterTags skipTags deleteUntagged versions)
          deleteUntagged ∧
    (∀ p ∈ (runPackage env keepAtMost filterTags skipTags deleteUntagged versions).recency,
      p ∈ versions.enum ∧ p.2.Tags ≠ []) ∧
    (∀ p ∈ untaggedPart (runPackage env keepAtMost filterTags skipTags deleteUntagged versions)
        deleteUntagged, p ∈ versions.enum ∧ p.2.Tags = []) ∧
    (∀ p ∈ keptOf versions
        (runPackage env keepAtMost filterTags skipTags deleteUntagged versions).unwanted,
      p ∉ (runPackage env keepAtMost filterTags skipTags deleteUntagged versions).unwanted) ∧
    (keptOf versions
        (runPackage env keepAtMost filterTags skipTags deleteUntagged versions).unwanted ++
      (runPackage env keepAtMost filterTags skipTags deleteUntagged versions).unwanted).Perm
      versions.enum := by
  have hrec := recency_tagged env hs keepAtMost filterTags skipTags deleteUntagged versions
  have hnd := recency_nodup env hs keepAtMost filterTags skipTags deleteUntagged versions
  have hun := runPackage_unwanted env keepAtMost filterTags skipTags deleteUntagged versions
  generalize hU : (if deleteUntagged = true then
      collectUntagged
        (runPackage env keepAtMost filterTags skipTags deleteUntagged versions).tagDependencies
        (untaggedOf versions.enum) else []) = U at hun
  have hUmem : ∀ p ∈ U, p ∈ versions.enum ∧ p.2.Tags = [] := by
    intro p hp
    rw [← hU] at hp
    split at hp
    · unfold collectUntagged at hp
      exact mem_untaggedOf.1 (List.mem_filter.1 hp).1
    · simp at hp
  have hUnd : U.Nodup := by
    rw [← hU]
    split
    · unfold collectUntagged untaggedOf
      exact ((enum_nodup versions).filter _).filter _
    · exact List.nodup_nil
  have hsub : ∀ p ∈ (runPackage env keepAtMost filterTags skipTags deleteUntagged
      versions).unwanted, p ∈ versions.enum := by
    intro p hp
    rw [hun, List.mem_append] at hp
    rcases hp with hp | hp
    · exact (hrec p hp).1
    · exact (hUmem p hp).1
  have hnodup : (runPackage env keepAtMost filterTags skipTags deleteUntagged
      versions).unwanted.Nodup := by
    rw [hun, List.nodup_append]
    refine ⟨hnd, hUnd, ?_⟩
    intro p hp hq
    exact (hrec p hp).2 (hUmem p hq).2
  have hUdef : untaggedPart (runPackage env keepAtMost filterTags skipTags deleteUntagged
      versions) deleteUntagged = U := by
    rw [← hU]
    rfl
  rw [hUdef]
  refine ⟨hsub, hnodup, hun, hrec, hUmem, ?_, ?_⟩
  · intro p hp
    simpa [keptOf] using (List.mem_filter.1 hp).2
  · have hk : (keptOf versions (runPackage env keepAtMost filterTags skipTags deleteUntagged
        versions).unwanted).Nodup := (enum_nodup versions).filter _
    rw [List.perm_ext_iff_of_nodup ?_ (enum_nodup versions)]
    · intro p
      simp only [List.mem_append, keptOf, List.mem_filter, decide_eq_true_eq]
      constructor
      · rintro (⟨h, _⟩ | h)
        · exact h
        · exact hsub p h
      · intro h
        by_cases hp : p ∈ (runPackage env keepAtMost filterTags skipTags deleteUntagged
            versions).unwanted
        · exact Or.inr hp
        · exact Or.inl ⟨h, hp⟩
    · rw [List.nodup_append]
      refine ⟨hk, hnodup, ?_⟩
      intro p hp hq
      exact (by simpa [keptOf] using (List.mem_filter.1 hp).2 : p ∉ _) hq

/-- C1, at an input where the code breaks it: with two tagged versions of the same
id 7 and `keepAtMost = 1`, the newer `sha-v1` is kept and its manifest lists `dA`,
yet lines 464-477 drop it from `tagged` along with the older one, no manifest is
fetched, and the untagged `dA` is returned. -/
theorem dependency_protection_shared_id :
    SortSliceSpec demoEnv.sortSlice ∧
    (0, (⟨7, "sha-v1", 30, ["v1"], "/v/1", demoPkg⟩ : Version)) ∈ sharedIdVersions.enum ∧
    (⟨7, "sha-v1", 30, ["v1"], "/v/1", demoPkg⟩ : Version).Tags ≠ [] ∧
    (0, (⟨7, "sha-v1", 30, ["v1"], "/v/1", demoPkg⟩ : Version)) ∉
      (runPackage demoEnv 1 [] [] true sharedIdVersions).unwanted ∧
    getDeps demoEnv (0, ⟨7, "sha-v1", 30, ["v1"], "/v/1", demoPkg⟩) = .ok ["dA", "dC"] ∧
    (2, (⟨3, "dA", 10, [], "/v/3", demoPkg⟩ : Version)) ∈ sharedIdVersions.enum ∧
    (⟨3, "dA", 10, [], "/v/3", demoPkg⟩ : Version).Tags = [] ∧
    (2, (⟨3, "dA", 10, [], "/v/3", demoPkg⟩ : Version)) ∈
      (runPackage demoEnv 1 [] [] true sharedIdVersions).unwanted ∧
    (runPackage demoEnv 1 [] [] true sharedIdVersions).tagged = [] ∧
    (runPackage demoEnv 1 [] [] true sharedIdVersions).getDepsCalls = [] ∧
    (runPackage demoEnv 1 [] [] true sharedIdVersions).unwanted.map (fun p => p.2.Digest) =
      ["sha-v0", "dA"] :=
  ⟨insertionSortLess_spec, by decide, by decide, by decide, by decide, by decide, by decide,
    by decide, by decide, by decide, by decide⟩

/-- Dependency protection where the ids of the input are pairwise distinct: an
untagged version of the input is returned as unwanted exactly when `deleteUntagged`
is set and no `getDeps` result of a retained tagged version (a tagged version of the
input that is not returned) lists its digest; so a digest that such a manifest lists
is never returned, and an unreferenced one is returned under `deleteUntagged`. -/
theorem protection_distinct_ids (env : Env) (hs : SortSliceSpec env.sortSlice) (keepAtMost : Int)
    (filterTags skipTags : List String) (deleteUntagged : Bool) (versions : List Version)
    (hid : (versions.map (fun v => v.ID)).Nodup)
    (p : VersionPtr) (hp : p ∈ versions.enum) (hu : p.2.Tags = []) :
    (p ∈ (runPackage env keepAtMost filterTags skipTags deleteUntagged versions).unwanted ↔
      deleteUntagged = true ∧
        ∀ q ∈ versions.enum, q.2.Tags ≠ [] →
          q ∉ (runPackage env keepAtMost filterTags skipTags deleteUntagged versions).unwanted →
          ∀ deps, getDeps env q = .ok deps → p.2.Digest ∉ deps) ∧
    (∀ q ∈ versions.enum, q.2.Tags ≠ [] →
      q ∉ (runPackage env keepAtMost filterTags skipTags deleteUntagged versions).unwanted →
      ∀ deps, getDeps env q = .ok deps → p.2.Digest ∈ deps →
        p ∉ (runPackage env keepAtMost filterTags skipTags deleteUntagged versions).unwanted) ∧
    ((∀ q ∈ versions.enum, q.2.Tags ≠ [] →
        q ∉ (runPackage env keepAtMost filterTags skipTags true versions).unwanted →
        ∀ deps, getDeps env q = .ok deps → p.2.Digest ∉ deps) →
      p ∈ (runPackage env keepAtMost filterTags skipTags true versions).unwanted) := by
  have hiff : ∀ du, p ∈ (runPackage env keepAtMost filterTags skipTags du versions).unwanted ↔
      du = true ∧
        ∀ q ∈ versions.enum, q.2.Tags ≠ [] →
          q ∉ (runPackage env keepAtMost filterTags skipTags du versions).unwanted →
          ∀ deps, getDeps env q = .ok deps → p.2.Digest ∉ deps := by
    intro du
    rw [mem_unwanted_untagged env hs _ _ _ du versions p hp hu]
    constructor
    · rintro ⟨h1, h2⟩
      refine ⟨h1, ?_⟩
      intro q hq ht hn deps hd
      exact h2 q ((mem_runPackage_tagged env hs _ _ _ du versions hid q).2 ⟨hq, ht, hn⟩) deps hd
    · rintro ⟨h1, h2⟩
      refine ⟨h1, ?_⟩
      intro q hq deps hd
      obtain ⟨h3, h4, h5⟩ := (mem_runPackage_tagged env hs _ _ _ du versions hid q).1 hq
      exact h2 q h3 h4 h5 deps hd
  refine ⟨hiff deleteUntagged, ?_, ?_⟩
  · intro q hq ht hn deps hd hmem hun
    exact ((hiff deleteUntagged).1 hun).2 q hq ht hn deps hd hmem
  · intro h
    exact (hiff true).2 ⟨rfl, h⟩

/-- C3: with `keepAtMost = 0` no tagged version is returned, every tagged version
stays in `tagged`, and under `deleteUntagged` each of them is looked up and the
digests its manifest lists are protected. -/
theorem keepAtMost_zero_disabled (env : Env) (filterTags skipTags : List String)
    (deleteUntagged : Bool) (versions : List Version) :
    (∀ p ∈ (runPackage env 0 filterTags skipTags deleteUntagged versions).unwanted,
        p.2.Tags = []) ∧
    (runPackage env 0 filterTags skipTags deleteUntagged versions).tagged =
        taggedOf versions.enum ∧
    (runPackage env 0 filterTags skipTags true versions).getDepsCalls =
        taggedOf versions.enum ∧
    (∀ q ∈ taggedOf versions.enum, ∀ deps, getDeps env q = .ok deps → ∀ d ∈ deps,
        (runPackage env 0 filterTags skipTags true versions).tagDependencies d = true) ∧
    (∀ (packages : List Package) (getVersions : Package → Except String (List Version))
      (r : List VersionPtr),
      run env (.ok packages) getVersions 0 filterTags skipTags deleteUntagged = .ok r →
        ∀ p ∈ r, p.2.Tags = []) := by
  have hrec : ∀ du, (runPackage env 0 filterTags skipTags du versions).recency = [] := by
    intro du
    rw [runPackage_recency]
    simp
  have htag : ∀ du, (runPackage env 0 filterTags skipTags du versions).tagged =
      taggedOf versions.enum := by
    intro du
    rw [runPackage_tagged]
    simp
  have hunw : ∀ (vs : List Version),
      ∀ p ∈ (runPackage env 0 filterTags skipTags deleteUntagged vs).unwanted, p.2.Tags = [] := by
    intro vs p hp
    have hrec0 : (runPackage env 0 filterTags skipTags deleteUntagged vs).recency = [] := by
      rw [runPackage_recency]
      simp
    rw [runPackage_unwanted, hrec0, List.nil_append] at hp
    split at hp
    · unfold collectUntagged at hp
      exact (mem_untaggedOf.1 (List.mem_filter.1 hp).1).2
    · simp at hp
  refine ⟨hunw versions, htag _, ?_, ?_, ?_⟩
  rotate_left 2
  · intro packages getVersions r hr p hp
    obtain ⟨pkg, _, vs, _, hmem⟩ := (run_mem env packages getVersions 0 filterTags skipTags
      deleteUntagged r hr p).1 hp
    exact hunw vs p hmem
  · rw [(runPackage_deps env 0 filterTags skipTags versions).2, buildDependencies_calls, htag]
    simp
  · intro q hq deps hd d hmem
    rw [(runPackage_deps env 0 filterTags skipTags versions).1, buildDependencies_true, htag]
    exact Or.inr ⟨q, hq, deps, hd, hmem⟩

/-- C5: when the ids of the input are pairwise distinct, `tagged` after the
recency cap is the tagged versions not marked unwanted by it, `getDeps` is called
on exactly these, and an untagged version that no manifest of a retained tagged
version lists is returned under `deleteUntagged`. -/
theorem dependency_set_from_retained (env : Env) (hs : SortSliceSpec env.sortSlice)
    (keepAtMost : Int) (filterTags skipTags : List String) (deleteUntagged : Bool)
    (versions : List Version) (hid : (versions.map (fun v => v.ID)).Nodup) :
    (runPackage env keepAtMost filterTags skipTags deleteUntagged versions).tagged =
      (taggedOf versions.enum).filter (fun q => decide (q ∉
        (runPackage env keepAtMost filterTags skipTags deleteUntagged versions).recency)) ∧
    (runPackage env keepAtMost filterTags skipTags true versions).getDepsCalls =
      (taggedOf versions.enum).filter (fun q => decide (q ∉
        (runPackage env keepAtMost filterTags skipTags true versions).recency)) ∧
    (∀ p ∈ versions.enum, p.2.Tags = [] →
      (∀ q ∈ taggedOf versions.enum,
        q ∉ (runPackage env keepAtMost filterTags skipTags true versions).recency →
        ∀ deps, getDeps env q = .ok deps → p.2.Digest ∉ deps) →
      p ∈ (runPackage env keepAtMost filterTags skipTags true versions).unwanted) := by
  have htag : ∀ du, (runPackage env keepAtMost filterTags skipTags du versions).tagged =
      (taggedOf versions.enum).filter (fun q => decide (q ∉
        (runPackage env keepAtMost filterTags skipTags du versions).recency)) := by
    intro du
    rw [runPackage_tagged]
    split
    · exact removeUnwanted_eq_filter versions hid _ _
        (fun p hp => (recency_tagged env hs _ _ _ du versions p hp).1)
        (fun p hp => (mem_taggedOf.1 hp).1)
    · rename_i hk
      have : (runPackage env keepAtMost filterTags skipTags du versions).recency = [] := by
        rw [runPackage_recency]
        simp [hk]
      simp [this]
  refine ⟨htag _, ?_, ?_⟩
  · rw [(runPackage_deps env keepAtMost filterTags skipTags versions).2, buildDependencies_calls,
      htag true]
    simp
  · intro p hp hu hall
    apply (mem_unwanted_untagged env hs _ _ _ true versions p hp hu).2
    refine ⟨rfl, ?_⟩
    intro q hq deps hd
    rw [htag true, List.mem_filter] at hq
    exact hall q hq.1 (by simpa using hq.2) deps hd

theorem run_ok (env : Env) (packages : List Package)
    (getVersions : Package → Except String (List Version)) (k : Int) (f s : List String)
    (du : Bool) : ∃ r, run env (.ok packages) getVersions k f s du = .ok r :=
  ⟨_, rfl⟩

/-- C7: `run` returns a list, not an error, whatever the `getDeps` calls return;
`getDeps` is called on every retained tagged version, the dependency set is exactly
the digests listed by the calls that succeed, and an untagged version that one of
them lists is not returned. -/
theorem manifest_failure_fail_open (env : Env) (hs : SortSliceSpec env.sortSlice)
    (keepAtMost : Int) (filterTags skipTags : List String) (versions : List Version) :
    (∀ packages getVersions deleteUntagged, ∃ r,
      run env (.ok packages) getVersions keepAtMost filterTags skipTags deleteUntagged = .ok r) ∧
    (∀ pkg deleteUntagged,
      run env (.ok [pkg]) (fun _ => .ok versions) keepAtMost filterTags skipTags deleteUntagged =
        .ok (runPackage env keepAtMost filterTags skipTags deleteUntagged versions).unwanted) ∧
    (runPackage env keepAtMost filterTags skipTags true versions).getDepsCalls =
      (runPackage env keepAtMost filterTags skipTags true versions).tagged ∧
    (∀ d, (runPackage env keepAtMost filterTags skipTags true versions).tagDependencies d = true ↔
      ∃ q ∈ (runPackage env keepAtMost filterTags skipTags true versions).tagged,
        ∃ deps, getDeps env q = .ok deps ∧ d ∈ deps) ∧
    (∀ p ∈ versions.enum, p.2.Tags = [] →
      ∀ q ∈ (runPackage env keepAtMost filterTags skipTags true versions).tagged,
        ∀ deps, getDeps env q = .ok deps → p.2.Digest ∈ deps →
          p ∉ (runPackage env keepAtMost filterTags skipTags true versions).unwanted) := by
  refine ⟨fun packages getVersions du => run_ok env packages getVersions _ _ _ du, ?_, ?_, ?_, ?_⟩
  · intro pkg du
    simp [run]
  · rw [(runPackage_deps env keepAtMost filterTags skipTags versions).2, buildDependencies_calls]
    simp
  · intro d
    rw [(runPackage_deps env keepAtMost filterTags skipTags versions).1, buildDependencies_true]
    simp
  · intro p hp hu q hq deps hd hmem hun
    exact ((mem_unwanted_untagged env hs _ _ _ true versions p hp hu).1 hun).2 q hq deps hd hmem

/-- C2: with empty `filterTags` and `skipTags` and `keepAtMost = k > 0`, the tagged
versions returned are the sorted tagged versions from position `k` on: there are
`n - k` of them (none when `n ≤ k`), `min n k` tagged versions are kept, no returned
tagged version is strictly later than a kept tagged one, and when the tagged
versions come in strictly decreasing date order the returned ones are those after
the first `k`. -/
theorem keep_at_most_boundary (env : Env) (hs : SortSliceSpec env.sortSlice) (keepAtMost : Int)
    (hk : keepAtMost > 0) (deleteUntagged : Bool) (versions : List Version) :
    (runPackage env keepAtMost [] [] deleteUntagged versions).unwanted.filter
        (fun p => decide (p.2.Tags ≠ [])) =
      (env.sortSlice dateAfter (taggedOf versions.enum)).drop keepAtMost.toNat ∧
    ((runPackage env keepAtMost [] [] deleteUntagged versions).unwanted.filter
        (fun p => decide (p.2.Tags ≠ []))).length =
      (taggedOf versions.enum).length - keepAtMost.toNat ∧
    ((taggedOf versions.enum).filter (fun p => decide (p ∉
        (runPackage env keepAtMost [] [] deleteUntagged versions).unwanted))).length =
      min (taggedOf versions.enum).length keepAtMost.toNat ∧
    (∀ u ∈ (runPackage env keepAtMost [] [] deleteUntagged versions).unwanted,
      u.2.Tags ≠ [] → ∀ q ∈ taggedOf versions.enum,
        q ∉ (runPackage env keepAtMost [] [] deleteUntagged versions).unwanted →
          ¬ u.2.Date > q.2.Date) ∧
    ((taggedOf versions.enum).Pairwise (fun a b => a.2.Date > b.2.Date) →
      (runPackage env keepAtMost [] [] deleteUntagged versions).unwanted.filter
          (fun p => decide (p.2.Tags ≠ [])) =
        (taggedOf versions.enum).drop keepAtMost.toNat) := by
  have hrec : (runPackage env keepAtMost [] [] deleteUntagged versions).recency =
      (env.sortSlice dateAfter (taggedOf versions.enum)).drop keepAtMost.toNat := by
    rw [runPackage_recency, sortableOf_nil_nil]
    simp [hk]
  have hperm := (hs dateAfter (taggedOf versions.enum)).1
  have hsort := (hs dateAfter (taggedOf versions.enum)).2 dateAfter_strictWeak
  have htnd : (taggedOf versions.enum).Nodup := (enum_nodup versions).filter _
  have hfil := unwanted_filter_tagged env hs keepAtMost [] [] deleteUntagged versions
  have hlen : (runPackage env keepAtMost [] [] deleteUntagged versions).recency.length =
      (taggedOf versions.enum).length - keepAtMost.toNat := by
    rw [hrec, List.length_drop, hperm.length_eq]
  have hkept : (taggedOf versions.enum).filter (fun p => decide (p ∉
        (runPackage env keepAtMost [] [] deleteUntagged versions).unwanted)) =
      (taggedOf versions.enum).filter (fun p => decide (p ∉
        (runPackage env keepAtMost [] [] deleteUntagged versions).recency)) := by
    apply List.filter_congr
    intro p hp
    have := tagged_mem_unwanted_iff env hs keepAtMost [] [] deleteUntagged versions p
      (mem_taggedOf.1 hp).2
    simp only [this]
  refine ⟨by rw [hfil, hrec], by rw [hfil, hlen], ?_, ?_, ?_⟩
  · rw [hkept, length_filter_not_mem _ _ htnd
      (recency_nodup env hs keepAtMost [] [] deleteUntagged versions) ?_, hlen]
    · omega
    · intro p hp
      have := mem_recency env hs keepAtMost [] [] deleteUntagged versions p hp
      rwa [sortableOf_nil_nil] at this
  · intro u hu hut q hq hqn
    rw [tagged_mem_unwanted_iff env hs keepAtMost [] [] deleteUntagged versions u hut, hrec] at hu
    rw [tagged_mem_unwanted_iff env hs keepAtMost [] [] deleteUntagged versions q
      (mem_taggedOf.1 hq).2, hrec] at hqn
    have hqs : q ∈ env.sortSlice dateAfter (taggedOf versions.enum) := hperm.symm.subset hq
    rw [← List.take_append_drop keepAtMost.toNat
      (env.sortSlice dateAfter (taggedOf versions.enum)), List.mem_append] at hqs
    have hqt := hqs.resolve_right hqn
    rw [← List.take_append_drop keepAtMost.toNat
      (env.sortSlice dateAfter (taggedOf versions.enum)), List.pairwise_append] at hsort
    have := hsort.2.2 q hqt u hu
    simpa [dateAfter] using this
  · intro hdec
    rw [hfil, hrec, sorted_unique _ _ hperm hsort hdec]

/-- C4: a tagged version enters the list that is sorted and cut exactly when it
matches no skip pattern and, if there are filter patterns, matches one of them;
a tagged version outside that list is never returned, so one that matches a skip
pattern, or fails a non-empty filter, is not returned, and the number of tagged
versions returned is the number of candidates minus `keepAtMost`. -/
theorem filter_skip_precedence (env : Env) (hs : SortSliceSpec env.sortSlice) (keepAtMost : Int)
    (hk : keepAtMost > 0) (filterTags skipTags : List String) (deleteUntagged : Bool)
    (versions : List Version) :
    (∀ p, p ∈ sortableOf env filterTags skipTags (taggedOf versions.enum) ↔
      (p ∈ versions.enum ∧ p.2.Tags ≠ []) ∧ matchTags env.filepathMatch p.2 skipTags = false ∧
        (filterTags = [] ∨ matchTags env.filepathMatch p.2 filterTags = true)) ∧
    (runPackage env keepAtMost filterTags skipTags deleteUntagged versions).unwanted.filter
        (fun p => decide (p.2.Tags ≠ [])) =
      (env.sortSlice dateAfter
        (sortableOf env filterTags skipTags (taggedOf versions.enum))).drop keepAtMost.toNat ∧
    (∀ p ∈ (runPackage env keepAtMost filterTags skipTags deleteUntagged versions).unwanted,
      p.2.Tags ≠ [] → p ∈ sortableOf env filterTags skipTags (taggedOf versions.enum)) ∧
    (∀ p : VersionPtr, p.2.Tags ≠ [] → matchTags env.filepathMatch p.2 skipTags = true →
      p ∉ (runPackage env keepAtMost filterTags skipTags deleteUntagged versions).unwanted) ∧
    (∀ p : VersionPtr, p.2.Tags ≠ [] → filterTags ≠ [] →
      matchTags env.filepathMatch p.2 filterTags = false →
      p ∉ (runPackage env keepAtMost filterTags skipTags deleteUntagged versions).unwanted) ∧
    ((runPackage env keepAtMost filterTags skipTags deleteUntagged versions).unwanted.filter
        (fun p => decide (p.2.Tags ≠ []))).length =
      (sortableOf env filterTags skipTags (taggedOf versions.enum)).length - keepAtMost.toNat := by
  have hrec : (runPackage env keepAtMost filterTags skipTags deleteUntagged versions).recency =
      (env.sortSlice dateAfter
        (sortableOf env filterTags skipTags (taggedOf versions.enum))).drop keepAtMost.toNat := by
    rw [runPackage_recency]
    simp [hk]
  have hfil := unwanted_filter_tagged env hs keepAtMost filterTags skipTags deleteUntagged versions
  have hcand : ∀ p ∈ (runPackage env keepAtMost filterTags skipTags deleteUntagged
      versions).unwanted, p.2.Tags ≠ [] →
      p ∈ sortableOf env filterTags skipTags (taggedOf versions.enum) := by
    intro p hp ht
    rw [tagged_mem_unwanted_iff env hs _ _ _ _ versions p ht] at hp
    exact mem_recency env hs _ _ _ _ versions p hp
  refine ⟨?_, by rw [hfil, hrec], hcand, ?_, ?_, ?_⟩
  · intro p
    rw [mem_sortableOf, mem_taggedOf]
  · intro p ht hm hp
    have := (mem_sortableOf.1 (hcand p hp ht)).2.1
    rw [hm] at this
    exact Bool.noConfusion this
  · intro p ht hf hm hp
    rcases (mem_sortableOf.1 (hcand p hp ht)).2.2 with h | h
    · exact hf h
    · rw [hm] at h
      exact Bool.noConfusion h
  · rw [hfil, hrec, List.length_drop,
      (hs dateAfter (sortableOf env filterTags skipTags (taggedOf versions.enum))).1.length_eq]

/-! ## The counters of the matcher are never exhausted -/

theorem decodeRune_pos (s0 : Nat) (rest : List Nat) : 1 ≤ (decodeRune (s0 :: rest)).2 := by
  simp only [decodeRune]
  repeat' split
  all_goals simp

theorem getEsc_lt (chunk : List Nat) (r : Nat) (n : List Nat)
    (h : getEsc chunk = .ok (r, n)) : n.length < chunk.length := by
  cases chunk with
  | nil => simp [getEsc] at h
  | cons c rest =>
    simp only [getEsc] at h
    by_cases h1 : c = Char.toNat '-' ∨ c = Char.toNat ']'
    · rw [if_pos h1] at h
      exact Except.noConfusion h
    · rw [if_neg h1] at h
      by_cases h2 : c = Char.toNat '\\' ∧ rest = []
      · rw [if_pos h2] at h
        exact Except.noConfusion h
      · rw [if_neg h2] at h
        by_cases h3 : c = Char.toNat '\\'
        · simp only [h3, if_true] at h
          split at h
          · exact Except.noConfusion h
          · simp only [Except.ok.injEq, Prod.mk.injEq] at h
            rw [← h.2]
            simp only [List.length_drop, List.length_cons]
            omega
        · simp only [h3, if_false] at h
          split at h
          · exact Except.noConfusion h
          · simp only [Except.ok.injEq, Prod.mk.injEq] at h
            rw [← h.2]
            have := decodeRune_pos c rest
            simp only [List.length_drop, List.length_cons]
            omega

theorem classLoop_fuel (r : Nat) (f1 : Nat) :
    ∀ (f2 : Nat) (chunk : List Nat) (m : Bool) (n : Nat), chunk.length < f1 → chunk.length < f2 →
      classLoop r f1 chunk m n = classLoop r f2 chunk m n := by
  induction f1 with
  | zero => intro f2 chunk m n h1; omega
  | succ f1 ih =>
    intro f2 chunk m n h1 h2
    cases f2 with
    | zero => omega
    | succ f2 =>
      unfold classLoop
      split
      · rfl
      · cases hg : getEsc chunk with
        | error e => rfl
        | ok res =>
          obtain ⟨lo, chunk1⟩ := res
          have hl1 := getEsc_lt chunk lo chunk1 hg
          dsimp only
          split
          · cases hg2 : getEsc chunk1.tail with
            | error e => rfl
            | ok res2 =>
              obtain ⟨hi, chunk2⟩ := res2
              have hl2 := getEsc_lt chunk1.tail hi chunk2 hg2
              have : chunk1.tail.length ≤ chunk1.length := by simp
              dsimp only
              exact ih f2 chunk2 _ _ (by omega) (by omega)
          · exact ih f2 chunk1 _ _ (by omega) (by omega)

theorem classLoop_lt (r : Nat) (f : Nat) :
    ∀ (chunk : List Nat) (m : Bool) (n : Nat) (b : Bool) (c3 : List Nat),
      classLoop r f chunk m n = .ok (b, c3) → c3.length < chunk.length := by
  induction f with
  | zero => intro chunk m n b c3 h; simp [classLoop] at h
  | succ f ih =>
    intro chunk m n b c3 h
    unfold classLoop at h
    split at h
    · rename_i hc
      injection h with h
      injection h with _ h
      subst h
      cases chunk with
      | nil => simp at hc
      | cons c rest => simp
    · cases hg : getEsc chunk with
      | error e => rw [hg] at h; exact Except.noConfusion h
      | ok res =>
        obtain ⟨lo, chunk1⟩ := res
        have hl1 := getEsc_lt chunk lo chunk1 hg
        rw [hg] at h
        dsimp only at h
        split at h
        · cases hg2 : getEsc chunk1.tail with
          | error e => rw [hg2] at h; exact Except.noConfusion h
          | ok res2 =>
            obtain ⟨hi, chunk2⟩ := res2
            have hl2 := getEsc_lt chunk1.tail hi chunk2 hg2
            have : chunk1.tail.length ≤ chunk1.length := by simp
            rw [hg2] at h
            dsimp only at h
            have := ih chunk2 _ _ b c3 h
            omega
        · have := ih chunk1 _ _ b c3 h
          omega

theorem matchChunkLoop_fuel (f1 : Nat) :
    ∀ (f2 : Nat) (chunk s : List Nat) (failed : Bool), chunk.length < f1 → chunk.length < f2 →
      matchChunkLoop f1 chunk s failed = matchChunkLoop f2 chunk s failed := by
  induction f1 with
  | zero => intro f2 chunk s failed h1; omega
  | succ f1 ih =>
    intro f2 chunk s failed h1 h2
    cases f2 with
    | zero => omega
    | succ f2 =>
      cases chunk with
      | nil => simp [matchChunkLoop]
      | cons c chunk1 =>
        simp only [List.length_cons] at h1 h2
        unfold matchChunkLoop
        dsimp only
        by_cases hb : c = Char.toNat '['
        · simp only [hb, if_true]
          have hlen : (if decide (chunk1.head? = some (Char.toNat '^')) = true then chunk1.tail
              else chunk1).length ≤ chunk1.length := by
            split
            · simp
            · exact Nat.le_refl _
          cases hc : classLoop (if (failed || s.isEmpty) = true then 0
              else (decodeRune s).1)
              ((if decide (chunk1.head? = some (Char.toNat '^')) = true then chunk1.tail
                else chunk1).length + 1)
              (if decide (chunk1.head? = some (Char.toNat '^')) = true then chunk1.tail else chunk1)
              false 0 with
          | error e => rfl
          | ok res =>
            obtain ⟨isMatch, chunk3⟩ := res
            have := classLoop_lt _ _ _ _ _ _ _ hc
            dsimp only
            exact ih f2 chunk3 _ _ (by omega) (by omega)
        · simp only [hb, if_false]
          by_cases hq : c = Char.toNat '?'
          · simp only [hq, if_true]
            split
            · exact ih f2 chunk1 _ _ (by omega) (by omega)
            · exact ih f2 chunk1 _ _ (by omega) (by omega)
          · simp only [hq, if_false]
            by_cases he : c = Char.toNat '\\'
            · simp only [he, if_true]
              cases chunk1 with
              | nil => rfl
              | cons d chunk2 =>
                simp only [List.length_cons] at h1 h2
                dsimp only
                split
                · exact ih f2 chunk2 _ _ (by omega) (by omega)
                · exact ih f2 chunk2 _ _ (by omega) (by omega)
            · simp only [he, if_false]
              split
              · exact ih f2 chunk1 _ _ (by omega) (by omega)
              · exact ih f2 chunk1 _ _ (by omega) (by omega)

theorem dropStars_length (l : List Nat) :
    (dropStars l).2.length ≤ l.length ∧
      ((dropStars l).1 = true → (dropStars l).2.length < l.length) ∧
      (dropStars l).2.head? ≠ some (Char.toNat '*') := by
  induction l with
  | nil => simp [dropStars]
  | cons c rest ih =>
    unfold dropStars
    by_cases h : c = Char.toNat '*'
    · simp only [h, if_true, List.length_cons]
      refine ⟨by omega, fun _ => by omega, ih.2.2⟩
    · simp only [h, if_false, List.length_cons, List.head?_cons]
      refine ⟨Nat.le_refl _, fun hf => Bool.noConfusion hf, ?_⟩
      intro hs
      exact h (Option.some.inj hs)

theorem scanLoop_length (n : Nat) :
    ∀ (inrange : Bool) (l : List Nat), l.length ≤ n →
      (scanLoop inrange l).2.length ≤ l.length ∧
        (l ≠ [] → l.head? ≠ some (Char.toNat '*') → (scanLoop inrange l).2.length < l.length) := by
  induction n with
  | zero =>
    intro inrange l hl
    have : l = [] := List.length_eq_zero.1 (Nat.le_zero.1 hl)
    subst this
    simp [scanLoop]
  | succ n ih =>
    intro inrange l hl
    cases l with
    | nil => simp [scanLoop]
    | cons c rest =>
      simp only [List.length_cons] at hl
      unfold scanLoop
      by_cases he : c = Char.toNat '\\'
      · simp only [he, if_true]
        cases rest with
        | nil => simp
        | cons d rest2 =>
          simp only [List.length_cons] at hl
          have := (ih inrange rest2 (by omega)).1
          simp only [List.length_cons]
          exact ⟨by omega, fun _ _ => by omega⟩
      · simp only [he, if_false]
        by_cases hb : c = Char.toNat '['
        · simp only [hb, if_true, List.length_cons]
          have := (ih true rest (by omega)).1
          exact ⟨by omega, fun _ _ => by omega⟩
        · simp only [hb, if_false]
          by_cases hc : c = Char.toNat ']'
          · simp only [hc, if_true, List.length_cons]
            have := (ih false rest (by omega)).1
            exact ⟨by omega, fun _ _ => by omega⟩
          · simp only [hc, if_false]
            by_cases hs : c = Char.toNat '*'
            · simp only [hs, if_true]
              cases inrange with
              | true =>
                simp only [if_true, List.length_cons]
                have := (ih true rest (by omega)).1
                exact ⟨by omega, fun _ _ => by omega⟩
              | false =>
                simp only [Bool.false_eq_true, if_false, List.length_cons]
                exact ⟨Nat.le_refl _, fun _ hh => absurd rfl hh⟩
            · simp only [hs, if_false, List.length_cons]
              have := (ih inrange rest (by omega)).1
              exact ⟨by omega, fun _ _ => by omega⟩

theorem scanChunk_lt (pattern : List Nat) (h : pattern ≠ []) :
    (scanChunk pattern).2.2.length < pattern.length := by
  unfold scanChunk
  dsimp only
  have hd := dropStars_length pattern
  have hs := scanLoop_length (dropStars pattern).2.length false (dropStars pattern).2
    (Nat.le_refl _)
  by_cases he : (dropStars pattern).2 = []
  · have hstar : (dropStars pattern).1 = true := by
      cases pattern with
      | nil => exact absurd rfl h
      | cons c rest =>
        by_cases hc : c = Char.toNat '*'
        · simp only [dropStars, hc, if_true]
        · simp only [dropStars, hc, if_false] at he
          exact absurd he (List.cons_ne_nil _ _)
    have := hd.2.1 hstar
    omega
  · have := hs.2 he hd.2.2
    omega

theorem matchLoop_fuel (f1 : Nat) :
    ∀ (f2 : Nat) (pattern name : List Nat), pattern.length < f1 → pattern.length < f2 →
      matchLoop f1 pattern name = matchLoop f2 pattern name := by
  induction f1 with
  | zero => intro f2 pattern name h1; omega
  | succ f1 ih =>
    intro f2 pattern name h1 h2
    cases f2 with
    | zero => omega
    | succ f2 =>
      unfold matchLoop
      by_cases hp : pattern = []
      · simp [hp]
      · have hlt := scanChunk_lt pattern hp
        have hne : pattern.isEmpty = false := by
          cases pattern with
          | nil => exact absurd rfl hp
          | cons _ _ => rfl
        simp only [hne, Bool.false_eq_true, if_false]
        split
        · rfl
        · cases matchChunk (scanChunk pattern).2.1 name with
          | error e => rfl
          | ok res =>
            dsimp only
            split
            · exact ih f2 _ _ (by omega) (by omega)
            · split
              · cases starLoop (scanChunk pattern).2.1 (scanChunk pattern).2.2.isEmpty name with
                | error e => rfl
                | ok r =>
                  cases r with
                  | none => rfl
                  | some t => exact ih f2 _ _ (by omega) (by omega)
              · rfl

theorem filepathMatch_fuel (pattern name : String) (extra : Nat) :
    matchLoop ((bytesOf pattern).length + 1 + extra) (bytesOf pattern) (bytesOf name) =
      filepathMatch pattern name := by
  unfold filepathMatch
  apply matchLoop_fuel <;> omega

/-! ## Glob matching of tags -/

theorem matchTagsInner_true (fm : String → String → Except String Bool) (pattern : String)
    (tags : List String) :
    matchTagsInner fm pattern tags = true ↔ ∃ tag ∈ tags, fm pattern tag = .ok true := by
  induction tags with
  | nil => simp [matchTagsInner]
  | cons tag rest ih =>
    unfold matchTagsInner
    cases h : fm pattern tag with
    | error e => simp [ih, h]
    | ok matched =>
      cases matched <;> simp [ih, h]

theorem matchTags_true (fm : String → String → Except String Bool) (v : Version)
    (patterns : List String) :
    matchTags fm v patterns = true ↔
      ∃ pattern ∈ patterns, ∃ tag ∈ v.Tags, fm pattern tag = .ok true := by
  induction patterns with
  | nil => simp [matchTags]
  | cons pattern rest ih =>
    unfold matchTags
    by_cases h : matchTagsInner fm pattern v.Tags = true
    · simp only [h, if_true, List.mem_cons, exists_eq_or_imp, true_iff]
      exact Or.inl ((matchTagsInner_true fm pattern v.Tags).1 h)
    · have h2 := mt (matchTagsInner_true fm pattern v.Tags).2 h
      simp only [h, if_false, ih, List.mem_cons, exists_eq_or_imp, Bool.false_eq_true]
      exact ⟨fun hr => Or.inr hr, fun hr => hr.resolve_left h2⟩

theorem filepathMatch_open_bracket (name : String) :
    filepathMatch "[" name = .error errBadPattern := by
  have hb : bytesOf "[" = [Char.toNat '['] := by decide
  unfold filepathMatch
  rw [hb]
  cases h : bytesOf name with
  | nil => rfl
  | cons c cs => rfl

/-- C8: `matchTags` is true exactly when some pattern and some tag of the version
match without error; no patterns or no tags give false; a pattern on which every
tag errors changes nothing, wherever it stands in the list; and `v1.*` matches
`v1.2.3`, does not match `v2.0.0`, while the unbalanced `[` is an error on every
name and leaves the answer to the other patterns. -/
theorem matchTags_glob :
    (∀ (fm : String → String → Except String Bool) (v : Version) (patterns : List String),
      matchTags fm v patterns = true ↔
        ∃ pattern ∈ patterns, ∃ tag ∈ v.Tags, fm pattern tag = .ok true) ∧
    (∀ (fm : String → String → Except String Bool) (v : Version), matchTags fm v [] = false) ∧
    (∀ (fm : String → String → Except String Bool) (v : Version) (patterns : List String),
      v.Tags = [] → matchTags fm v patterns = false) ∧
    (∀ (fm : String → String → Except String Bool) (v : Version) (pattern : String)
      (before after : List String),
      (∀ tag ∈ v.Tags, ∃ e, fm pattern tag = .error e) →
        matchTags fm v (before ++ pattern :: after) = matchTags fm v (before ++ after)) ∧
    filepathMatch "v1.*" "v1.2.3" = .ok true ∧
    filepathMatch "v1.*" "v2.0.0" = .ok false ∧
    (∀ name : String, filepathMatch "[" name = .error errBadPattern) ∧
    (∀ v : Version, matchTags filepathMatch v ["[", "v1.*"] = matchTags filepathMatch v ["v1.*"]) ∧
    matchTags filepathMatch ⟨1, "sha", 0, ["v1.2.3"], "", ⟨"", "", "", ""⟩⟩ ["[", "v1.*"] = true ∧
    matchTags filepathMatch ⟨1, "sha", 0, ["v2.0.0"], "", ⟨"", "", "", ""⟩⟩ ["[", "v1.*"] = false := by
  have hskip : ∀ (fm : String → String → Except String Bool) (v : Version) (pattern : String)
      (before after : List String),
      (∀ tag ∈ v.Tags, ∃ e, fm pattern tag = .error e) →
        matchTags fm v (before ++ pattern :: after) = matchTags fm v (before ++ after) := by
    intro fm v pattern before after herr
    rw [Bool.eq_iff_iff, matchTags_true, matchTags_true]
    constructor
    · rintro ⟨pat, hpat, tag, htag, hm⟩
      refine ⟨pat, ?_, tag, htag, hm⟩
      rcases List.mem_append.1 hpat with h | h
      · exact List.mem_append.2 (Or.inl h)
      · rcases List.mem_cons.1 h with rfl | h
        · obtain ⟨e, he⟩ := herr tag htag
          rw [he] at hm
          exact Except.noConfusion hm
        · exact List.mem_append.2 (Or.inr h)
    · rintro ⟨pat, hpat, tag, htag, hm⟩
      refine ⟨pat, ?_, tag, htag, hm⟩
      rcases List.mem_append.1 hpat with h | h
      · exact List.mem_append.2 (Or.inl h)
      · exact List.mem_append.2 (Or.inr (List.mem_cons_of_mem _ h))
  refine ⟨matchTags_true, fun _ _ => rfl, ?_, hskip, by decide, by decide,
    filepathMatch_open_bracket, ?_, by decide, by decide⟩
  · intro fm v patterns hv
    rw [← Bool.not_eq_true, matchTags_true, hv]
    simp
  · intro v
    exact hskip filepathMatch v "[" [] ["v1.*"]
      (fun tag _ => ⟨errBadPattern, filepathMatch_open_bracket tag⟩)

/-! ## The deletion tally -/

theorem flatten_map_singleton {α β : Type} (f : α → β) (l : List α) :
    (l.map (fun v => [f v])).flatten = l.map f := by
  induction l with
  | nil => rfl
  | cons v rest ih => simp [ih]

theorem bulkDeleteLoop_spec (D : Bool) (api : Nat → GithubAPI) (l : List VersionPtr) (i : Nat)
    (st : BulkState) :
    (bulkDeleteLoop D api i l st).successCount =
        st.successCount + (l.enumFrom i).countP (fun iv => decide ((deleteAt D api iv).err = none)) ∧
    (bulkDeleteLoop D api i l st).errorCount =
        st.errorCount + (l.enumFrom i).countP (fun iv => decide ((deleteAt D api iv).err ≠ none)) ∧
    (bulkDeleteLoop D api i l st).stdout =
        st.stdout ++ ((l.enumFrom i).map (fun iv => (deleteAt D api iv).stdout)).flatten ∧
    (bulkDeleteLoop D api i l st).requests =
        st.requests ++ ((l.enumFrom i).map (fun iv => (deleteAt D api iv).requests)).flatten := by
  induction l generalizing i st with
  | nil => simp [bulkDeleteLoop]
  | cons v rest ih =>
    unfold bulkDeleteLoop
    cases h : (delete D (api i) v.2).err with
    | none =>
      simp only [ih, List.enumFrom_cons, List.countP_cons, deleteAt, h, List.map_cons,
        List.flatten_cons]
      simp
      omega
    | some e =>
      simp only [ih, List.enumFrom_cons, List.countP_cons, deleteAt, h, List.map_cons,
        List.flatten_cons]
      simp
      omega

/-- C9: `bulkDelete` calls `delete` on every version in list order (the printed text
and the requests sent are those of the calls, one after the other), the two counts
are the numbers of calls that returned `nil` and an error and add up to the length
of the list, and the exit code is 1 exactly when a call failed and 0 otherwise; in
dry-run mode no request is sent, every call returns `nil`, and the exit code is 0. -/
theorem bulkDelete_outcome (DRY_RUN : Bool) (api : Nat → GithubAPI)
    (deleteList : List VersionPtr) :
    (bulkDeleteState DRY_RUN api deleteList).stdout =
      (deleteList.enum.map (fun iv => (deleteAt DRY_RUN api iv).stdout)).flatten ∧
    (∀ iv : Nat × VersionPtr, ∃ line, (deleteAt DRY_RUN api iv).stdout =
      ["Deleting " ++ iv.2.2.Digest ++ ": ", line]) ∧
    (bulkDeleteState false api deleteList).requests =
      deleteList.map (fun v => (v.2.URL, "DELETE")) ∧
    (bulkDeleteState DRY_RUN api deleteList).successCount =
      deleteList.enum.countP (fun iv => decide ((deleteAt DRY_RUN api iv).err = none)) ∧
    (bulkDeleteState DRY_RUN api deleteList).errorCount =
      deleteList.enum.countP (fun iv => decide ((deleteAt DRY_RUN api iv).err ≠ none)) ∧
    (bulkDeleteState DRY_RUN api deleteList).successCount +
      (bulkDeleteState DRY_RUN api deleteList).errorCount = deleteList.length ∧
    (bulkDelete DRY_RUN api deleteList = 1 ↔
      ∃ iv ∈ deleteList.enum, (deleteAt DRY_RUN api iv).err ≠ none) ∧
    (bulkDelete DRY_RUN api deleteList = 0 ↔
      ∀ iv ∈ deleteList.enum, (deleteAt DRY_RUN api iv).err = none) ∧
    (∀ iv : Nat × VersionPtr, (deleteAt true api iv).err = none ∧
      (deleteAt true api iv).requests = []) ∧
    (bulkDeleteState true api deleteList).requests = [] ∧
    (bulkDeleteState true api deleteList).errorCount = 0 ∧
    (bulkDeleteState true api deleteList).successCount = deleteList.length ∧
    bulkDelete true api deleteList = 0 := by
  have hspec := fun D => bulkDeleteLoop_spec D api deleteList 0 ⟨0, 0, [], []⟩
  have hdry : ∀ iv : Nat × VersionPtr, (deleteAt true api iv).err = none ∧
      (deleteAt true api iv).requests = [] := fun v => ⟨rfl, rfl⟩
  have hreq : ∀ iv : Nat × VersionPtr,
      (deleteAt false api iv).requests = [(iv.2.2.URL, "DELETE")] := by
    intro iv
    unfold deleteAt delete
    simp only [Bool.false_eq_true, if_false]
    cases api iv.1 iv.2.2.URL "DELETE" none with
    | error e => rfl
    | ok resp => by_cases h : resp.StatusCode = 204 <;> simp [h]
  have hbanner : ∀ iv : Nat × VersionPtr, ∃ line, (deleteAt DRY_RUN api iv).stdout =
      ["Deleting " ++ iv.2.2.Digest ++ ": ", line] := by
    intro iv
    unfold deleteAt delete
    cases DRY_RUN with
    | true => exact ⟨_, rfl⟩
    | false =>
      simp only [Bool.false_eq_true, if_false]
      cases api iv.1 iv.2.2.URL "DELETE" none with
      | error e => exact ⟨_, rfl⟩
      | ok resp => by_cases h : resp.StatusCode = 204 <;> simp [h]
  have hsumD : ∀ D, (bulkDeleteState D api deleteList).successCount +
      (bulkDeleteState D api deleteList).errorCount = deleteList.length := by
    intro D
    unfold bulkDeleteState
    rw [(hspec D).1, (hspec D).2.1]
    have := List.length_eq_countP_add_countP
      (fun iv : Nat × VersionPtr => decide ((deleteAt D api iv).err = none))
      (deleteList.enumFrom 0)
    rw [List.enumFrom_length] at this
    simp only [Nat.zero_add]
    rw [this]
    congr 1
    apply List.countP_congr
    intro v _
    simp
  have herr0 : (bulkDeleteState true api deleteList).errorCount = 0 := by
    unfold bulkDeleteState
    rw [(hspec true).2.1]
    simp [hdry]
  refine ⟨?_, hbanner, ?_, ?_, ?_, hsumD DRY_RUN, ?_, ?_, hdry, ?_, herr0, ?_, ?_⟩
  · unfold bulkDeleteState
    rw [(hspec DRY_RUN).2.2.1]
    simp [List.enum]
  · unfold bulkDeleteState
    rw [(hspec false).2.2.2]
    simp only [List.nil_append, hreq]
    rw [flatten_map_singleton (fun iv : Nat × VersionPtr => (iv.2.2.URL, "DELETE"))]
    have : (fun iv : Nat × VersionPtr => (iv.2.2.URL, "DELETE")) =
        (fun v : VersionPtr => (v.2.URL, "DELETE")) ∘ Prod.snd := rfl
    rw [this, ← List.map_map, List.enumFrom_map_snd]
  · unfold bulkDeleteState
    rw [(hspec DRY_RUN).1]
    simp [List.enum]
  · unfold bulkDeleteState
    rw [(hspec DRY_RUN).2.1]
    simp [List.enum]
  · unfold bulkDelete bulkDeleteState
    rw [(hspec DRY_RUN).2.1]
    simp only [Nat.zero_add, List.countP_pos_iff, decide_eq_true_eq, List.enum]
    constructor
    · intro h
      by_contra hne
      simp [hne] at h
    · intro h
      simp [h]
  · unfold bulkDelete bulkDeleteState
    rw [(hspec DRY_RUN).2.1]
    simp only [Nat.zero_add, List.countP_pos_iff, decide_eq_true_eq, List.enum]
    constructor
    · intro h v hv
      by_contra hne
      have : ∃ a ∈ deleteList.enumFrom 0, (deleteAt DRY_RUN api a).err ≠ none := ⟨v, hv, hne⟩
      simp [this] at h
    · intro h
      have : ¬ ∃ a ∈ deleteList.enumFrom 0, (deleteAt DRY_RUN api a).err ≠ none := by
        rintro ⟨a, ha, hne⟩
        exact hne (h a ha)
      simp [this]
  · unfold bulkDeleteState
    rw [(hspec true).2.2.2]
    simp [hdry]
  · have := hsumD true
    omega
  · unfold bulkDelete
    simp [herr0]

/-! ## The pagination cursor -/

theorem splitOnChar_ne_nil (sep : Char) (l : List Char) : splitOnChar sep l ≠ [] := by
  cases l with
  | nil => simp [splitOnChar]
  | cons c rest =>
    unfold splitOnChar
    split
    · simp
    · split <;> simp

theorem splitOnChar_cons_ne (sep c : Char) (rest piece : List Char) (pieces : List (List Char))
    (hc : c ≠ sep) (h : splitOnChar sep rest = piece :: pieces) :
    splitOnChar sep (c :: rest) = (c :: piece) :: pieces := by
  rw [splitOnChar, if_neg hc, h]

theorem splitOnChar_not_mem (sep : Char) (a : List Char) (h : sep ∉ a) :
    splitOnChar sep a = [a] := by
  induction a with
  | nil => rfl
  | cons c rest ih =>
    have hc : c ≠ sep := fun e => h (e ▸ List.mem_cons_self _ _)
    have hr : sep ∉ rest := fun hm => h (List.mem_cons_of_mem _ hm)
    exact splitOnChar_cons_ne sep c rest rest [] hc (ih hr)

theorem splitOnChar_append (sep : Char) (a b : List Char) (h : sep ∉ a) :
    splitOnChar sep (a ++ sep :: b) = a :: splitOnChar sep b := by
  induction a with
  | nil => rw [List.nil_append, splitOnChar, if_pos rfl]
  | cons c rest ih =>
    have hc : c ≠ sep := fun e => h (e ▸ List.mem_cons_self _ _)
    have hr : sep ∉ rest := fun hm => h (List.mem_cons_of_mem _ hm)
    rw [List.cons_append]
    exact splitOnChar_cons_ne sep c _ rest _ hc (ih hr)

theorem dropWhile_append_all (p : Char → Bool) (pre s : List Char) (h : ∀ c ∈ pre, p c = true) :
    (pre ++ s).dropWhile p = s.dropWhile p := by
  induction pre with
  | nil => rfl
  | cons c rest ih =>
    rw [List.cons_append, List.dropWhile_cons, if_pos (h c (List.mem_cons_self _ _))]
    exact ih (fun x hx => h x (List.mem_cons_of_mem _ hx))

theorem trimFunc_keep (p : Char → Bool) (pre : List Char) (a b : Char) (m : List Char)
    (hpre : ∀ c ∈ pre, p c = true) (ha : p a = false) (hb : p b = false) :
    trimFunc p (pre ++ a :: (m ++ [b])) = a :: (m ++ [b]) := by
  unfold trimFunc
  rw [dropWhile_append_all p pre _ hpre, List.dropWhile_cons, if_neg (by simp [ha])]
  have : (a :: (m ++ [b])).reverse = b :: (m.reverse ++ [a]) := by simp
  rw [this, List.dropWhile_cons, if_neg (by simp [hb])]
  simp

theorem trimFunc_strip (p : Char → Bool) (pre u post : List Char)
    (hpre : ∀ c ∈ pre, p c = true) (hpost : ∀ c ∈ post, p c = true)
    (hu : ∀ c ∈ u, p c = false) : trimFunc p (pre ++ (u ++ post)) = u := by
  unfold trimFunc
  rw [dropWhile_append_all p pre _ hpre]
  cases u with
  | nil =>
    have : (([] : List Char) ++ post).dropWhile p = [] := by
      rw [List.nil_append, List.dropWhile_eq_nil_iff]
      exact hpost
    rw [this]
    rfl
  | cons x xs =>
    rw [List.cons_append, List.dropWhile_cons, if_neg (by simp [hu x (List.mem_cons_self _ _)])]
    have hrev : (x :: (xs ++ post)).reverse = post.reverse ++ (x :: xs).reverse := by simp
    rw [hrev, dropWhile_append_all p post.reverse _ (fun c hc => hpost c (List.mem_reverse.1 hc))]
    have hlast : ∃ y ys, (x :: xs).reverse = y :: ys ∧ p y = false := by
      cases hr : (x :: xs).reverse with
      | nil => simp at hr
      | cons y ys =>
        refine ⟨y, ys, rfl, hu y ?_⟩
        rw [← List.mem_reverse, hr]
        exact List.mem_cons_self _ _
    obtain ⟨y, ys, hy, hpy⟩ := hlast
    rw [hy, List.dropWhile_cons, if_neg (by simp [hpy]), ← hy, List.reverse_reverse]

theorem urlClean_iff (e : LinkEntry) :
    e.urlClean = true ↔ ∀ c ∈ e.u.data, c ≠ '<' ∧ c ≠ '>' ∧ c ≠ ',' ∧ c ≠ ';' := by
  simp [LinkEntry.urlClean, List.all_eq_true, and_assoc]

theorem relPlain_iff (e : LinkEntry) :
    e.relPlain = true ↔ ∀ c ∈ e.r.data, c ≠ ',' ∧ c ≠ ';' := by
  simp [LinkEntry.relPlain, List.all_eq_true]

theorem trimSpace_render (e : LinkEntry) :
    trimSpace e.render =
      '<' :: (e.u.data ++ '>' :: ';' :: ' ' :: 'r' :: 'e' :: 'l' :: '=' :: '"' ::
        (e.r.data ++ ['"'])) := by
  have h := trimFunc_keep isSpace (List.replicate e.pad ' ') '<' '"'
    (e.u.data ++ '>' :: ';' :: ' ' :: 'r' :: 'e' :: 'l' :: '=' :: '"' :: e.r.data)
    (fun c hc => by rw [List.eq_of_mem_replicate hc]; decide) (by decide) (by decide)
  simpa [trimSpace, LinkEntry.render] using h

theorem split_semicolon_entry (e : LinkEntry) (hu : e.urlClean = true) (hr : e.relPlain = true) :
    splitOnChar ';' ('<' :: (e.u.data ++ '>' :: ';' :: ' ' :: 'r' :: 'e' :: 'l' :: '=' :: '"' ::
        (e.r.data ++ ['"']))) =
      ['<' :: (e.u.data ++ ['>']),
        ' ' :: 'r' :: 'e' :: 'l' :: '=' :: '"' :: (e.r.data ++ ['"'])] := by
  have h1 : ';' ∉ '<' :: (e.u.data ++ ['>']) := by
    intro hm
    simp only [List.mem_cons, List.mem_append, List.mem_singleton] at hm
    rcases hm with h | h | h | h
    · exact absurd h (by decide)
    · exact ((urlClean_iff e).1 hu _ h).2.2.2 rfl
    · exact absurd h (by decide)
    · exact (List.not_mem_nil _ h)
  have h2 : ';' ∉ ' ' :: 'r' :: 'e' :: 'l' :: '=' :: '"' :: (e.r.data ++ ['"']) := by
    intro hm
    simp only [List.mem_cons, List.mem_append, List.mem_singleton] at hm
    rcases hm with h | h | h | h | h | h | h | h | h
    · exact absurd h (by decide)
    · exact absurd h (by decide)
    · exact absurd h (by decide)
    · exact absurd h (by decide)
    · exact absurd h (by decide)
    · exact absurd h (by decide)
    · exact ((relPlain_iff e).1 hr _ h).2 rfl
    · exact absurd h (by decide)
    · exact (List.not_mem_nil _ h)
  have h := splitOnChar_append ';' ('<' :: (e.u.data ++ ['>']))
    (' ' :: 'r' :: 'e' :: 'l' :: '=' :: '"' :: (e.r.data ++ ['"'])) h1
  rw [splitOnChar_not_mem ';' _ h2] at h
  simpa using h

theorem trimCutset_url (e : LinkEntry) (hu : e.urlClean = true) :
    trimCutset ['<', '>'] ('<' :: (e.u.data ++ ['>'])) = e.u.data := by
  have h := trimFunc_strip (fun c => ['<', '>'].contains c) ['<'] e.u.data ['>']
    (fun c hc => by rw [List.mem_singleton.1 hc]; decide)
    (fun c hc => by rw [List.mem_singleton.1 hc]; decide)
    (fun c hc => by
      have := (urlClean_iff e).1 hu c hc
      simp [this.1, this.2.1])
  simpa [trimCutset] using h

theorem trimSpace_rel (r : List Char) :
    trimSpace (' ' :: 'r' :: 'e' :: 'l' :: '=' :: '"' :: (r ++ ['"'])) =
      'r' :: 'e' :: 'l' :: '=' :: '"' :: (r ++ ['"']) := by
  have h := trimFunc_keep isSpace [' '] 'r' '"' ('e' :: 'l' :: '=' :: '"' :: r)
    (fun c hc => by rw [List.mem_singleton.1 hc]; decide) (by decide) (by decide)
  simpa [trimSpace] using h

theorem rel_is_next (e : LinkEntry) :
    ('r' :: 'e' :: 'l' :: '=' :: '"' :: (e.r.data ++ ['"']) = "rel=\"next\"".data) ↔
      e.r = "next" := by
  have hd : "rel=\"next\"".data = 'r' :: 'e' :: 'l' :: '=' :: '"' :: (['n', 'e', 'x', 't'] ++ ['"']) :=
    rfl
  rw [hd]
  constructor
  · intro h
    have h2 : e.r.data = ['n', 'e', 'x', 't'] := by
      simp only [List.cons.injEq, true_and] at h
      exact List.append_cancel_right h
    exact String.ext h2
  · intro h
    rw [h]

theorem parseNextLinkLoop_entry (e : LinkEntry) (links : List (List Char))
    (hu : e.urlClean = true) (hr : e.relPlain = true) :
    parseNextLinkLoop (e.render :: links) =
      if e.r = "next" then e.u.data else parseNextLinkLoop links := by
  rw [parseNextLinkLoop, trimSpace_render, split_semicolon_entry e hu hr]
  dsimp only
  rw [trimCutset_url e hu, trimSpace_rel]
  by_cases h : e.r = "next"
  · rw [if_pos h, if_pos ((rel_is_next e).2 h)]
  · rw [if_neg h, if_neg (mt (rel_is_next e).1 h)]

theorem comma_not_mem_render (e : LinkEntry) (hu : e.urlClean = true) (hr : e.relPlain = true) :
    ',' ∉ e.render := by
  intro hm
  simp only [LinkEntry.render, List.mem_append, List.mem_cons, List.mem_singleton] at hm
  rcases hm with h | h | h | h | h | h | h | h | h | h | h | h | h | h
  · exact absurd (List.eq_of_mem_replicate h) (by decide)
  · exact absurd h (by decide)
  · exact ((urlClean_iff e).1 hu _ h).2.2.1 rfl
  · exact absurd h (by decide)
  · exact absurd h (by decide)
  · exact absurd h (by decide)
  · exact absurd h (by decide)
  · exact absurd h (by decide)
  · exact absurd h (by decide)
  · exact absurd h (by decide)
  · exact absurd h (by decide)
  · exact ((relPlain_iff e).1 hr _ h).1 rfl
  · exact absurd h (by decide)
  · exact (List.not_mem_nil _ h)

theorem splitOnChar_append_sep (sep : Char) (a b : List Char) :
    splitOnChar sep (a ++ sep :: b) = splitOnChar sep a ++ splitOnChar sep b := by
  induction a with
  | nil => simp [splitOnChar]
  | cons c rest ih =>
    rw [List.cons_append]
    by_cases hc : c = sep
    · rw [splitOnChar, if_pos hc, ih, splitOnChar, if_pos hc, List.cons_append]
    · cases hs : splitOnChar sep rest with
      | nil => exact absurd hs (splitOnChar_ne_nil sep rest)
      | cons piece pieces =>
        rw [splitOnChar_cons_ne sep c rest piece pieces hc hs]
        rw [hs] at ih
        exact splitOnChar_cons_ne sep c _ piece (pieces ++ splitOnChar sep b) hc ih

theorem splitOnChar_prefix (sep : Char) (x y y0 : List Char) (ys : List (List Char))
    (hx : sep ∉ x) (hy : splitOnChar sep y = y0 :: ys) :
    splitOnChar sep (x ++ y) = (x ++ y0) :: ys := by
  induction x with
  | nil => simpa using hy
  | cons c rest ih =>
    have hc : c ≠ sep := fun e => hx (e ▸ List.mem_cons_self _ _)
    have hr : sep ∉ rest := fun hm => hx (List.mem_cons_of_mem _ hm)
    rw [List.cons_append]
    exact splitOnChar_cons_ne sep c _ _ _ hc (ih hr)

theorem splitOnChar_count_le (sep q : Char) (l : List Char) :
    ∀ part ∈ splitOnChar sep l, part.count q ≤ l.count q := by
  induction l with
  | nil =>
    intro part hp
    simp only [splitOnChar, List.mem_singleton] at hp
    rw [hp]
  | cons c rest ih =>
    intro part hp
    by_cases hc : c = sep
    · rw [splitOnChar, if_pos hc, List.mem_cons] at hp
      rcases hp with rfl | hp
      · simp
      · exact Nat.le_trans (ih part hp) (List.Sublist.count_le (List.sublist_cons_self c rest) q)
    · cases hs : splitOnChar sep rest with
      | nil => exact absurd hs (splitOnChar_ne_nil sep rest)
      | cons piece pieces =>
        rw [splitOnChar_cons_ne sep c rest piece pieces hc hs, List.mem_cons] at hp
        rcases hp with rfl | hp
        · have := ih piece (by rw [hs]; exact List.mem_cons_self _ _)
          rw [List.count_cons, List.count_cons]
          omega
        · exact Nat.le_trans (ih part (by rw [hs]; exact List.mem_cons_of_mem _ hp))
            (List.Sublist.count_le (List.sublist_cons_self c rest) q)

theorem trimFunc_count_le (p : Char → Bool) (q : Char) (s : List Char) :
    (trimFunc p s).count q ≤ s.count q := by
  apply List.Sublist.count_le
  unfold trimFunc
  have h1 : ((s.dropWhile p).reverse.dropWhile p).Sublist (s.dropWhile p).reverse :=
    List.dropWhile_sublist p
  have h2 := h1.reverse
  rw [List.reverse_reverse] at h2
  exact h2.trans (List.dropWhile_sublist p)

theorem parseNextLinkLoop_skip (link : List Char) (links : List (List Char))
    (h : ∀ p0 p1 rest, splitOnChar ';' (trimSpace link) = p0 :: p1 :: rest →
      p1.count '"' ≤ 1) :
    parseNextLinkLoop (link :: links) = parseNextLinkLoop links := by
  rw [parseNextLinkLoop]
  cases hs : splitOnChar ';' (trimSpace link) with
  | nil => rfl
  | cons p0 ps =>
    cases ps with
    | nil => rfl
    | cons p1 rest =>
      have hc := h p0 p1 rest hs
      have hne : trimSpace p1 ≠ "rel=\"next\"".data := by
        intro he
        have h1 := trimFunc_count_le isSpace '"' p1
        have h2 : (trimSpace p1).count '"' = 2 := by
          rw [he]
          decide
        unfold trimSpace at h2
        omega
      dsimp only
      rw [if_neg hne]

theorem parseNextLinkLoop_skip_count (link : List Char) (links : List (List Char))
    (h : link.count '"' ≤ 1) :
    parseNextLinkLoop (link :: links) = parseNextLinkLoop links := by
  apply parseNextLinkLoop_skip
  intro p0 p1 rest hs
  have h1 := splitOnChar_count_le ';' '"' (trimSpace link) p1
    (by rw [hs]; exact List.mem_cons_of_mem _ (List.mem_cons_self _ _))
  have h2 := trimFunc_count_le isSpace '"' link
  unfold trimSpace at h1
  omega

theorem parseNextLinkLoop_skip_all (pieces links : List (List Char))
    (h : ∀ link ∈ pieces, link.count '"' ≤ 1) :
    parseNextLinkLoop (pieces ++ links) = parseNextLinkLoop links := by
  induction pieces with
  | nil => rfl
  | cons link rest ih =>
    rw [List.cons_append, parseNextLinkLoop_skip_count link _ (h link (List.mem_cons_self _ _))]
    exact ih (fun l hl => h l (List.mem_cons_of_mem _ hl))

theorem first_delimiter (l : List Char) (h : ∃ c ∈ l, c = ',' ∨ c = ';') :
    ∃ ra d rb, l = ra ++ d :: rb ∧ (∀ c ∈ ra, c ≠ ',' ∧ c ≠ ';') ∧ (d = ',' ∨ d = ';') := by
  induction l with
  | nil =>
    obtain ⟨c, hc, _⟩ := h
    exact absurd hc (List.not_mem_nil c)
  | cons x rest ih =>
    by_cases hx : x = ',' ∨ x = ';'
    · exact ⟨[], x, rest, rfl, fun c hc => absurd hc (List.not_mem_nil c), hx⟩
    · have hrest : ∃ c ∈ rest, c = ',' ∨ c = ';' := by
        obtain ⟨c, hc, hd⟩ := h
        rcases List.mem_cons.1 hc with rfl | hc
        · exact absurd hd hx
        · exact ⟨c, hc, hd⟩
      obtain ⟨ra, d, rb, hl, hra, hd⟩ := ih hrest
      refine ⟨x :: ra, d, rb, by rw [hl]; rfl, ?_, hd⟩
      intro c hc
      rcases List.mem_cons.1 hc with rfl | hc
      · exact ⟨fun e => hx (Or.inl e), fun e => hx (Or.inr e)⟩
      · exact hra c hc

theorem dropWhile_append_cons_neg (p : Char → Bool) (x : List Char) (c : Char) (y : List Char)
    (hc : p c = false) : (x ++ c :: y).dropWhile p = x.dropWhile p ++ c :: y := by
  induction x with
  | nil => rw [List.nil_append, List.dropWhile_cons, if_neg (by simp [hc])]; rfl
  | cons a rest ih =>
    rw [List.cons_append, List.dropWhile_cons, List.dropWhile_cons]
    by_cases ha : p a = true
    · rw [if_pos ha, if_pos ha]
      exact ih
    · rw [if_neg ha, if_neg ha]
      rfl

theorem trimFunc_shape (p : Char → Bool) (pad : List Char) (b : Char) (body : List Char)
    (c : Char) (x : List Char) (hpad : ∀ a ∈ pad, p a = true) (hb : p b = false)
    (hc : p c = false) :
    trimFunc p (pad ++ (b :: body ++ c :: x)) =
      b :: body ++ c :: (x.reverse.dropWhile p).reverse := by
  unfold trimFunc
  rw [dropWhile_append_all p pad _ hpad, List.cons_append, List.dropWhile_cons,
    if_neg (by simp [hb])]
  have hrev : (b :: (body ++ c :: x)).reverse = x.reverse ++ c :: (b :: body).reverse := by
    simp
  rw [hrev, dropWhile_append_cons_neg p _ c _ hc]
  simp

theorem semicolon_not_mem_url (e : LinkEntry) (hu : e.urlClean = true) :
    ';' ∉ '<' :: (e.u.data ++ ['>']) := by
  intro hm
  simp only [List.mem_cons, List.mem_append, List.mem_singleton] at hm
  rcases hm with h | h | h | h
  · exact absurd h (by decide)
  · exact ((urlClean_iff e).1 hu _ h).2.2.2 rfl
  · exact absurd h (by decide)
  · exact (List.not_mem_nil _ h)

theorem rel_prefix_count (x : List Char) :
    (' ' :: 'r' :: 'e' :: 'l' :: '=' :: '"' :: x).count '"' = x.count '"' + 1 := by
  simp [List.count_cons]

theorem entry_skip_comma (e : LinkEntry) (links : List (List Char)) (ra rb : List Char)
    (hu : e.urlClean = true) (hr : e.r.data = ra ++ ',' :: rb)
    (hra : ∀ c ∈ ra, c ≠ ',' ∧ c ≠ ';') (hqa : '"' ∉ ra) (hqb : '"' ∉ rb) :
    parseNextLinkLoop (splitOnChar ',' e.render ++ links) = parseNextLinkLoop links := by
  have hrender : e.render =
      (List.replicate e.pad ' ' ++ ('<' :: (e.u.data ++ ['>', ';', ' ', 'r', 'e', 'l', '=']) ++
        '"' :: ra)) ++ ',' :: (rb ++ ['"']) := by
    simp [LinkEntry.render, hr]
  have hG : ',' ∉ List.replicate e.pad ' ' ++
      ('<' :: (e.u.data ++ ['>', ';', ' ', 'r', 'e', 'l', '=']) ++ '"' :: ra) := by
    intro hm
    have hsplit : ',' ∈ List.replicate e.pad ' ' ∨ ',' ∈ e.u.data ∨ ',' ∈ ra ∨
        ',' ∈ ['<', '>', ';', ' ', 'r', 'e', 'l', '=', '"'] := by
      simp only [List.mem_append, List.mem_cons, List.mem_singleton, List.not_mem_nil,
        or_false] at hm ⊢
      tauto
    rcases hsplit with h | h | h | h
    · exact absurd (List.eq_of_mem_replicate h) (by decide)
    · exact ((urlClean_iff e).1 hu _ h).2.2.1 rfl
    · exact (hra _ h).1 rfl
    · exact absurd h (by decide)
  rw [hrender, splitOnChar_append ',' _ _ hG, List.cons_append]
  have htrim := trimFunc_shape isSpace (List.replicate e.pad ' ') '<'
    (e.u.data ++ ['>', ';', ' ', 'r', 'e', 'l', '=']) '"' ra
    (fun c hc => by rw [List.eq_of_mem_replicate hc]; decide) (by decide) (by decide)
  have hfirst : parseNextLinkLoop
      ((List.replicate e.pad ' ' ++ ('<' :: (e.u.data ++ ['>', ';', ' ', 'r', 'e', 'l', '=']) ++
        '"' :: ra)) :: (splitOnChar ',' (rb ++ ['"']) ++ links)) =
      parseNextLinkLoop (splitOnChar ',' (rb ++ ['"']) ++ links) := by
    apply parseNextLinkLoop_skip
    intro p0 p1 rest hs
    unfold trimSpace at hs
    rw [htrim] at hs
    have hshape : '<' :: (e.u.data ++ ['>', ';', ' ', 'r', 'e', 'l', '=']) ++
        '"' :: (ra.reverse.dropWhile isSpace).reverse =
        ('<' :: (e.u.data ++ ['>'])) ++ ';' ::
          (' ' :: 'r' :: 'e' :: 'l' :: '=' :: '"' :: (ra.reverse.dropWhile isSpace).reverse) := by
      simp
    rw [hshape, splitOnChar_append ';' _ _ (semicolon_not_mem_url e hu)] at hs
    have hmem : p1 ∈ splitOnChar ';'
        (' ' :: 'r' :: 'e' :: 'l' :: '=' :: '"' :: (ra.reverse.dropWhile isSpace).reverse) := by
      have := (List.cons.inj hs).2
      rw [this]
      exact List.mem_cons_self _ _
    have hle := splitOnChar_count_le ';' '"' _ p1 hmem
    have hrt : ((ra.reverse.dropWhile isSpace).reverse).count '"' ≤ ra.count '"' := by
      apply List.Sublist.count_le
      have h1 : (ra.reverse.dropWhile isSpace).Sublist ra.reverse := List.dropWhile_sublist _
      have h2 := h1.reverse
      rwa [List.reverse_reverse] at h2
    have hz : ra.count '"' = 0 := List.count_eq_zero.2 hqa
    have hcnt := rel_prefix_count ((ra.reverse.dropWhile isSpace).reverse)
    omega
  rw [hfirst]
  apply parseNextLinkLoop_skip_all
  intro link hl
  have hle := splitOnChar_count_le ',' '"' _ link hl
  have hz : rb.count '"' = 0 := List.count_eq_zero.2 hqb
  have : (rb ++ ['"']).count '"' = 1 := by
    rw [List.count_append, hz]
    decide
  omega

theorem entry_skip_semicolon (e : LinkEntry) (links : List (List Char)) (ra rb : List Char)
    (hu : e.urlClean = true) (hr : e.r.data = ra ++ ';' :: rb)
    (hra : ∀ c ∈ ra, c ≠ ',' ∧ c ≠ ';') (hqa : '"' ∉ ra) (hqb : '"' ∉ rb) :
    parseNextLinkLoop (splitOnChar ',' e.render ++ links) = parseNextLinkLoop links := by
  have hrender : e.render =
      (List.replicate e.pad ' ' ++
        ('<' :: (e.u.data ++ ['>', ';', ' ', 'r', 'e', 'l', '=', '"'] ++ ra) ++ [';'])) ++
        (rb ++ ['"']) := by
    simp [LinkEntry.render, hr]
  have hG : ',' ∉ List.replicate e.pad ' ' ++
      ('<' :: (e.u.data ++ ['>', ';', ' ', 'r', 'e', 'l', '=', '"'] ++ ra) ++ [';']) := by
    intro hm
    have hsplit : ',' ∈ List.replicate e.pad ' ' ∨ ',' ∈ e.u.data ∨ ',' ∈ ra ∨
        ',' ∈ ['<', '>', ';', ' ', 'r', 'e', 'l', '=', '"'] := by
      simp only [List.mem_append, List.mem_cons, List.mem_singleton, List.not_mem_nil,
        or_false] at hm ⊢
      tauto
    rcases hsplit with h | h | h | h
    · exact absurd (List.eq_of_mem_replicate h) (by decide)
    · exact ((urlClean_iff e).1 hu _ h).2.2.1 rfl
    · exact (hra _ h).1 rfl
    · exact absurd h (by decide)
  have hzb : (rb ++ ['"']).count '"' = 1 := by
    rw [List.count_append, List.count_eq_zero.2 hqb]
    decide
  cases hy : splitOnChar ',' (rb ++ ['"']) with
  | nil => exact absurd hy (splitOnChar_ne_nil _ _)
  | cons y0 ys =>
    rw [hrender, splitOnChar_prefix ',' _ _ y0 ys hG hy, List.cons_append]
    have htrim := trimFunc_shape isSpace (List.replicate e.pad ' ') '<'
      (e.u.data ++ ['>', ';', ' ', 'r', 'e', 'l', '=', '"'] ++ ra) ';' y0
      (fun c hc => by rw [List.eq_of_mem_replicate hc]; decide) (by decide) (by decide)
    have hK : ';' ∉ ' ' :: 'r' :: 'e' :: 'l' :: '=' :: '"' :: ra := by
      intro hm
      have hsplit : ';' ∈ ra ∨ ';' ∈ [' ', 'r', 'e', 'l', '=', '"'] := by
        simp only [List.mem_cons, List.mem_singleton, List.not_mem_nil, or_false] at hm ⊢
        tauto
      rcases hsplit with h | h
      · exact (hra _ h).2 rfl
      · exact absurd h (by decide)
    have hfirst : parseNextLinkLoop
        ((List.replicate e.pad ' ' ++
          ('<' :: (e.u.data ++ ['>', ';', ' ', 'r', 'e', 'l', '=', '"'] ++ ra) ++ [';']) ++ y0) ::
          (ys ++ links)) = parseNextLinkLoop (ys ++ links) := by
      apply parseNextLinkLoop_skip
      intro p0 p1 rest hs
      have hpiece : List.replicate e.pad ' ' ++
          ('<' :: (e.u.data ++ ['>', ';', ' ', 'r', 'e', 'l', '=', '"'] ++ ra) ++ [';']) ++ y0 =
          List.replicate e.pad ' ' ++
            ('<' :: (e.u.data ++ ['>', ';', ' ', 'r', 'e', 'l', '=', '"'] ++ ra) ++ ';' :: y0) := by
        simp
      unfold trimSpace at hs
      rw [hpiece, htrim] at hs
      have hshape : '<' :: (e.u.data ++ ['>', ';', ' ', 'r', 'e', 'l', '=', '"'] ++ ra) ++
          ';' :: (y0.reverse.dropWhile isSpace).reverse =
          ('<' :: (e.u.data ++ ['>'])) ++ ';' ::
            ((' ' :: 'r' :: 'e' :: 'l' :: '=' :: '"' :: ra) ++
              ';' :: (y0.reverse.dropWhile isSpace).reverse) := by
        simp
      rw [hshape, splitOnChar_append ';' _ _ (semicolon_not_mem_url e hu),
        splitOnChar_append ';' _ _ hK] at hs
      have hp1 : p1 = ' ' :: 'r' :: 'e' :: 'l' :: '=' :: '"' :: ra :=
        ((List.cons.inj (List.cons.inj hs).2).1).symm
      rw [hp1, rel_prefix_count, List.count_eq_zero.2 hqa]
    rw [hfirst]
    apply parseNextLinkLoop_skip_all
    intro link hl
    have hle := splitOnChar_count_le ',' '"' (rb ++ ['"']) link
      (by rw [hy]; exact List.mem_cons_of_mem _ hl)
    omega

theorem next_is_plain (e : LinkEntry) (h : e.r = "next") : e.relPlain = true := by
  unfold LinkEntry.relPlain
  rw [h]
  decide

theorem parseNextLinkLoop_pieces (e : LinkEntry) (links : List (List Char))
    (hu : e.urlClean = true) (hr : e.relClean = true) :
    parseNextLinkLoop (splitOnChar ',' e.render ++ links) =
      if e.r = "next" then e.u.data else parseNextLinkLoop links := by
  by_cases hp : e.relPlain = true
  · rw [splitOnChar_not_mem ',' _ (comma_not_mem_render e hu hp), List.singleton_append]
    exact parseNextLinkLoop_entry e links hu hp
  · have hq : e.relQuoteFree = true := by
      unfold LinkEntry.relClean at hr
      rcases Bool.or_eq_true _ _ ▸ hr with h | h
      · exact h
      · exact absurd h hp
    have hnext : e.r ≠ "next" := fun h => hp (next_is_plain e h)
    rw [if_neg hnext]
    have hquote : ∀ c ∈ e.r.data, c ≠ '"' := by
      simpa [LinkEntry.relQuoteFree, List.all_eq_true] using hq
    have hdelim : ∃ c ∈ e.r.data, c = ',' ∨ c = ';' := by
      by_contra hno
      apply hp
      rw [relPlain_iff]
      intro c hc
      exact ⟨fun h => hno ⟨c, hc, Or.inl h⟩, fun h => hno ⟨c, hc, Or.inr h⟩⟩
    obtain ⟨ra, d, rb, hl, hra, hd⟩ := first_delimiter e.r.data hdelim
    have hqa : '"' ∉ ra := fun hm => hquote '"' (by rw [hl]; simp [hm]) rfl
    have hqb : '"' ∉ rb := fun hm => hquote '"' (by rw [hl]; simp [hm]) rfl
    rcases hd with rfl | rfl
    · exact entry_skip_comma e links ra rb hu hl hra hqa hqb
    · exact entry_skip_semicolon e links ra rb hu hl hra hqa hqb

theorem parseNextLinkLoop_header (e : LinkEntry) (es : List LinkEntry)
    (hu : ∀ x ∈ e :: es, x.urlClean = true) (hr : ∀ x ∈ e :: es, x.relClean = true) :
    parseNextLinkLoop (splitOnChar ',' (renderEntries (e :: es))) =
      (firstNext (e :: es)).data := by
  induction es generalizing e with
  | nil =>
    have h := parseNextLinkLoop_pieces e [] (hu e (List.mem_cons_self _ _))
      (hr e (List.mem_cons_self _ _))
    rw [List.append_nil] at h
    rw [firstNext]
    show parseNextLinkLoop (splitOnChar ',' e.render) = _
    rw [h]
    by_cases hn : e.r = "next"
    · rw [if_pos hn, if_pos hn]
    · rw [if_neg hn, if_neg hn]
      rfl
  | cons e2 rest ih =>
    show parseNextLinkLoop (splitOnChar ',' (e.render ++ ',' :: renderEntries (e2 :: rest))) = _
    rw [splitOnChar_append_sep, parseNextLinkLoop_pieces e _ (hu e (List.mem_cons_self _ _))
      (hr e (List.mem_cons_self _ _)), firstNext]
    by_cases hn : e.r = "next"
    · rw [if_pos hn, if_pos hn]
    · rw [if_neg hn, if_neg hn]
      exact ih e2 (fun x hx => hu x (List.mem_cons_of_mem _ hx))
        (fun x hx => hr x (List.mem_cons_of_mem _ hx))

theorem parseNextLink_entries (entries : List LinkEntry)
    (hu : ∀ x ∈ entries, x.urlClean = true) (hr : ∀ x ∈ entries, x.relClean = true) :
    parseNextLink (linkHeaderOf entries) = firstNext entries := by
  unfold parseNextLink linkHeaderOf
  cases entries with
  | nil => rfl
  | cons e es =>
    show String.mk (parseNextLinkLoop (splitOnChar ',' (renderEntries (e :: es)))) = _
    rw [parseNextLinkLoop_header e es hu hr]

theorem followLink_eq {α : Type} (env : ListEnv) (acc : List α) (linkHeader : String) :
    followLink env acc linkHeader =
      if parseNextLink linkHeader = "" then PageStep.done (.ok acc)
      else
        match env.urlParse (parseNextLink linkHeader) with
        | .error err => PageStep.done (.error err)
        | .ok u => PageStep.next acc u.1 u.2 := by
  unfold followLink
  by_cases h : linkHeader = ""
  · subst h
    have : parseNextLink "" = "" := by decide
    simp [this]
  · by_cases h2 : parseNextLink linkHeader = "" <;> simp [h, h2]

theorem firstNext_none (entries : List LinkEntry) (h : ∀ e ∈ entries, e.r ≠ "next") :
    firstNext entries = "" := by
  induction entries with
  | nil => rfl
  | cons e rest ih =>
    rw [firstNext, if_neg (h e (List.mem_cons_self _ _))]
    exact ih (fun x hx => h x (List.mem_cons_of_mem _ hx))

theorem firstNext_split (pre : List LinkEntry) (e : LinkEntry) (post : List LinkEntry)
    (hpre : ∀ x ∈ pre, x.r ≠ "next") (he : e.r = "next") :
    firstNext (pre ++ e :: post) = e.u := by
  induction pre with
  | nil => rw [List.nil_append, firstNext, if_pos he]
  | cons x rest ih =>
    rw [List.cons_append, firstNext, if_neg (hpre x (List.mem_cons_self _ _))]
    exact ih (fun y hy => hpre y (List.mem_cons_of_mem _ hy))

theorem firstNext_eq_empty_iff (entries : List LinkEntry)
    (h : ∀ e ∈ entries, e.r = "next" → e.u ≠ "") :
    firstNext entries = "" ↔ ∀ e ∈ entries, e.r ≠ "next" := by
  constructor
  · intro hf
    induction entries with
    | nil => intro e he; exact absurd he (List.not_mem_nil e)
    | cons x rest ih =>
      rw [firstNext] at hf
      by_cases hx : x.r = "next"
      · rw [if_pos hx] at hf
        exact absurd hf (h x (List.mem_cons_self _ _) hx)
      · rw [if_neg hx] at hf
        intro e he
        rcases List.mem_cons.1 he with rfl | he
        · exact hx
        · exact ih (fun y hy => h y (List.mem_cons_of_mem _ hy)) hf e he
  · exact firstNext_none entries

/-- C10: for a header made of entries `<u>; rel="r"` separated by commas, each `u`
free of `<`, `>`, `,`, `;` and each `r` a value between quotes (free of `"`, or free
of `,` and `;`), `parseNextLink` returns the `u` of the first entry whose `r` is
`next` and the empty string when there is none; and after a page read without error
`getVersions` and `getAllPackages` leave their loop with what they gathered exactly
when that link is empty, and otherwise go on from it. -/
theorem parseNextLink_first_next (entries : List LinkEntry)
    (hu : ∀ e ∈ entries, e.urlClean = true) (hr : ∀ e ∈ entries, e.relClean = true) :
    parseNextLink (linkHeaderOf entries) = firstNext entries ∧
    ((∀ e ∈ entries, e.r ≠ "next") → parseNextLink (linkHeaderOf entries) = "") ∧
    (∀ pre e post, entries = pre ++ e :: post → (∀ x ∈ pre, x.r ≠ "next") → e.r = "next" →
      parseNextLink (linkHeaderOf entries) = e.u) ∧
    ((∀ e ∈ entries, e.r = "next" → e.u ≠ "") →
      (parseNextLink (linkHeaderOf entries) = "" ↔ ∀ e ∈ entries, e.r ≠ "next")) ∧
    (∀ (env : ListEnv) (p : Package) (versions : List Version) (urlPath : String)
      (params : Values) (resp : Response) (versionDatas : List VersionData)
      (gathered : List Version),
      env.requestGithubAPI urlPath "GET" (some params) = .ok resp → resp.StatusCode = 200 →
      resp.Link = linkHeaderOf entries → env.decodeVersionDatas resp.Body = .ok versionDatas →
      appendVersions env p versionDatas versions = .ok gathered →
      (getVersionsPage env p versions urlPath params = .done (.ok gathered) ↔
        parseNextLink (linkHeaderOf entries) = "") ∧
      ∀ fuel : Nat, getVersionsLoop env p (fuel + 1) versions urlPath params =
        if firstNext entries = "" then some (.ok gathered)
        else
          match env.urlParse (firstNext entries) with
          | .error err => some (.error err)
          | .ok u => getVersionsLoop env p fuel gathered u.1 u.2) ∧
    (∀ (env : ListEnv) (ownerType owner repoName packageName : String)
      (packages : List Package) (path : String) (params : Values) (resp : Response)
      (packageDatas : List PackageData),
      env.requestGithubAPI path "GET" (some params) = .ok resp → resp.StatusCode = 200 →
      resp.Link = linkHeaderOf entries → env.decodePackageDatas resp.Body = .ok packageDatas →
      (getAllPackagesPage env ownerType owner repoName packageName packages path params =
          .done (.ok (appendPackages env ownerType owner repoName packageName packageDatas
            packages)) ↔
        parseNextLink (linkHeaderOf entries) = "") ∧
      ∀ fuel : Nat,
        getAllPackagesLoop env ownerType owner repoName packageName (fuel + 1) packages path
            params =
          if firstNext entries = "" then
            some (.ok (appendPackages env ownerType owner repoName packageName packageDatas
              packages))
          else
            match env.urlParse (firstNext entries) with
            | .error err => some (.error err)
            | .ok u =>
              getAllPackagesLoop env ownerType owner repoName packageName fuel
                (appendPackages env ownerType owner repoName packageName packageDatas packages)
                u.1 u.2) := by
  have hmain := parseNextLink_entries entries hu hr
  refine ⟨hmain, ?_, ?_, ?_, ?_, ?_⟩
  · intro h
    rw [hmain, firstNext_none entries h]
  · intro pre e post hsplit hpre he
    rw [hmain, hsplit, firstNext_split pre e post hpre he]
  · intro h
    rw [hmain]
    exact firstNext_eq_empty_iff entries h
  · intro env p versions urlPath params resp versionDatas gathered hreq hst hlink hdec happ
    have hpage : getVersionsPage env p versions urlPath params =
        if firstNext entries = "" then PageStep.done (.ok gathered)
        else
          match env.urlParse (firstNext entries) with
          | .error err => PageStep.done (.error err)
          | .ok u => PageStep.next gathered u.1 u.2 := by
      rw [getVersionsPage, hreq]
      simp only [hst, ne_eq, not_true_eq_false, if_false, hdec, happ, hlink, followLink_eq, hmain]
    refine ⟨?_, ?_⟩
    · rw [hpage, hmain]
      by_cases h : firstNext entries = ""
      · simp [h]
      · simp only [h, if_false, iff_false]
        cases env.urlParse (firstNext entries) <;> simp
    · intro fuel
      rw [getVersionsLoop, hpage]
      by_cases h : firstNext entries = ""
      · simp [h]
      · simp only [h, if_false]
        cases env.urlParse (firstNext entries) <;> rfl
  · intro env ownerType owner repoName packageName packages path params resp packageDatas
      hreq hst hlink hdec
    have hpage : getAllPackagesPage env ownerType owner repoName packageName packages path
        params =
        if firstNext entries = "" then
          PageStep.done (.ok (appendPackages env ownerType owner repoName packageName
            packageDatas packages))
        else
          match env.urlParse (firstNext entries) with
          | .error err => PageStep.done (.error err)
          | .ok u =>
            PageStep.next (appendPackages env ownerType owner repoName packageName packageDatas
              packages) u.1 u.2 := by
      rw [getAllPackagesPage, hreq]
      simp only [hst, ne_eq, not_true_eq_false, if_false, hdec, hlink, followLink_eq, hmain]
    refine ⟨?_, ?_⟩
    · rw [hpage, hmain]
      by_cases h : firstNext entries = ""
      · simp [h]
      · simp only [h, if_false, iff_false]
        cases env.urlParse (firstNext entries) <;> simp
    · intro fuel
      rw [getAllPackagesLoop, hpage]
      by_cases h : firstNext entries = ""
      · simp [h]
      · simp only [h, if_false]
        cases env.urlParse (firstNext entries) <;> rfl

/-! ## The statements at concrete inputs -/

/-- Dependency protection at the scenario of the specification, whose ids are
distinct: `dA`, listed by the manifest of the retained `v1`, is not returned, and the
unreferenced `dB` is. -/
theorem protection_distinct_ids_scenario :
    SortSliceSpec demoEnv.sortSlice ∧ (demoVersions.map (fun v => v.ID)).Nodup ∧
    (2, demoA) ∈ demoVersions.enum ∧ demoA.Tags = [] ∧
    (3, demoB) ∈ demoVersions.enum ∧ demoB.Tags = [] ∧
    (0, demoV1) ∈ demoVersions.enum ∧ demoV1.Tags ≠ [] ∧
    (0, demoV1) ∉ (runPackage demoEnv 1 [] [] true demoVersions).unwanted ∧
    getDeps demoEnv (0, demoV1) = .ok ["dA", "dC"] ∧
    (2, demoA) ∉ (runPackage demoEnv 1 [] [] true demoVersions).unwanted ∧
    ((3, demoB) ∈ (runPackage demoEnv 1 [] [] true demoVersions).unwanted ↔
      true = true ∧ ∀ q ∈ demoVersions.enum, q.2.Tags ≠ [] →
        q ∉ (runPackage demoEnv 1 [] [] true demoVersions).unwanted →
        ∀ deps, getDeps demoEnv q = .ok deps → (3, demoB).2.Digest ∉ deps) ∧
    (3, demoB) ∈ (runPackage demoEnv 1 [] [] true demoVersions).unwanted :=
  ⟨insertionSortLess_spec, by decide, by decide, by decide, by decide, by decide, by decide,
    by decide, by decide, by decide,
    (protection_distinct_ids demoEnv insertionSortLess_spec 1 [] [] true demoVersions (by decide)
      (2, demoA) (by decide) (by decide)).2.1 (0, demoV1) (by decide) (by decide) (by decide)
      ["dA", "dC"] (by decide) (by decide),
    (protection_distinct_ids demoEnv insertionSortLess_spec 1 [] [] true demoVersions (by decide)
      (3, demoB) (by decide) (by decide)).1,
    by decide⟩

/-- C2 at seven tagged versions of decreasing dates and `keepAtMost = 5`: the two
oldest, and only they, are returned. -/
theorem keep_at_most_boundary_witness :
    SortSliceSpec demoEnv.sortSlice ∧ (5 : Int) > 0 ∧
    (taggedOf sevenVersions.enum).Pairwise (fun a b => a.2.Date > b.2.Date) ∧
    (runPackage demoEnv 5 [] [] true sevenVersions).unwanted.filter
        (fun p => decide (p.2.Tags ≠ [])) =
      (taggedOf sevenVersions.enum).drop (5 : Int).toNat ∧
    ((taggedOf sevenVersions.enum).drop (5 : Int).toNat).map (fun p => p.2.Digest) =
      ["sha-5", "sha-6"] ∧
    ((runPackage demoEnv 5 [] [] true sevenVersions).unwanted.filter
        (fun p => decide (p.2.Tags ≠ []))).length = 7 - 5 :=
  ⟨insertionSortLess_spec, by decide, by decide,
    (keep_at_most_boundary demoEnv insertionSortLess_spec 5 (by decide) true sevenVersions).2.2.2.2
      (by decide),
    by decide,
    (keep_at_most_boundary demoEnv insertionSortLess_spec 5 (by decide) true sevenVersions).2.1⟩

/-- C4 at the scenario with filter `v*` and skip `v1`: the version tagged `v1`
matches both lists and is not returned. -/
theorem filter_skip_precedence_witness :
    SortSliceSpec demoEnv.sortSlice ∧ (1 : Int) > 0 ∧
    demoV1.Tags ≠ [] ∧ matchTags demoEnv.filepathMatch demoV1 ["v1"] = true ∧
    matchTags demoEnv.filepathMatch demoV1 ["v*"] = true ∧
    (0, demoV1) ∉ (runPackage demoEnv 1 ["v*"] ["v1"] true demoVersions).unwanted :=
  ⟨insertionSortLess_spec, by decide, by decide, by decide, by decide,
    (filter_skip_precedence demoEnv insertionSortLess_spec 1 (by decide) ["v*"] ["v1"] true
      demoVersions).2.2.2.1 (0, demoV1) (by decide) (by decide)⟩

/-- C5 at the scenario, whose ids are distinct: `getDeps` is called on the tagged
versions that the recency cap did not mark. -/
theorem dependency_set_from_retained_witness :
    SortSliceSpec demoEnv.sortSlice ∧ (demoVersions.map (fun v => v.ID)).Nodup ∧
    (runPackage demoEnv 1 [] [] true demoVersions).getDepsCalls =
      (taggedOf demoVersions.enum).filter (fun q => decide (q ∉
        (runPackage demoEnv 1 [] [] true demoVersions).recency)) :=
  ⟨insertionSortLess_spec, by decide,
    (dependency_set_from_retained demoEnv insertionSortLess_spec 1 [] [] true demoVersions
      (by decide)).2.1⟩

/-- C6 at the scenario: nothing is returned twice, and kept and returned versions
rearrange the input. -/
theorem partition_unwanted_witness :
    SortSliceSpec demoEnv.sortSlice ∧
    (runPackage demoEnv 1 [] [] true demoVersions).unwanted = [(1, demoV0), (3, demoB)] ∧
    (runPackage demoEnv 1 [] [] true demoVersions).unwanted.Nodup ∧
    (keptOf demoVersions (runPackage demoEnv 1 [] [] true demoVersions).unwanted ++
      (runPackage demoEnv 1 [] [] true demoVersions).unwanted).Perm demoVersions.enum :=
  ⟨insertionSortLess_spec, by decide,
    (partition_unwanted demoEnv insertionSortLess_spec 1 [] [] true demoVersions).2.1,
    (partition_unwanted demoEnv insertionSortLess_spec 1 [] [] true demoVersions).2.2.2.2.2.2⟩

/-- C7 at the scenario with both tagged versions retained: the lookup of `v0`
fails, that of `v1` succeeds, and `dA` stays protected. -/
theorem manifest_failure_fail_open_witness :
    SortSliceSpec demoEnv.sortSlice ∧
    getDeps demoEnv (1, demoV0) = .error "Failed to get manifest: 404" ∧
    getDeps demoEnv (0, demoV1) = .ok ["dA", "dC"] ∧
    (runPackage demoEnv 2 [] [] true demoVersions).getDepsCalls =
      (runPackage demoEnv 2 [] [] true demoVersions).tagged ∧
    (2, demoA) ∉ (runPackage demoEnv 2 [] [] true demoVersions).unwanted :=
  ⟨insertionSortLess_spec, by decide, by decide,
    (manifest_failure_fail_open demoEnv insertionSortLess_spec 2 [] [] demoVersions).2.2.1,
    (manifest_failure_fail_open demoEnv insertionSortLess_spec 2 [] [] demoVersions).2.2.2.2
      (2, demoA) (by decide) (by decide) (0, demoV1) (by decide) ["dA", "dC"] (by decide)
      (by decide)⟩

set_option maxRecDepth 8000 in
/-- C10 at a header of three entries as the API sends it, and at one whose first
two values hold a comma and a semicolon: the link of the entry `next`. -/
theorem parseNextLink_first_next_witness :
    (∀ e ∈ demoEntries, e.urlClean = true) ∧ (∀ e ∈ demoEntries, e.relClean = true) ∧
    linkHeaderOf demoEntries =
      "<https://api.github.com/orgs/acme/packages?page=1>; rel=\"prev\", <https://api.github.com/orgs/acme/packages?page=3>; rel=\"next\", <https://api.github.com/orgs/acme/packages?page=5>; rel=\"last\"" ∧
    firstNext demoEntries = "https://api.github.com/orgs/acme/packages?page=3" ∧
    parseNextLink (linkHeaderOf demoEntries) = firstNext demoEntries ∧
    (∀ e ∈ listEntries, e.urlClean = true) ∧ (∀ e ∈ listEntries, e.relClean = true) ∧
    linkHeaderOf listEntries = "<a>; rel=\"next,last\", <b>; rel=\"x;y\", <c>; rel=\"next\"" ∧
    firstNext listEntries = "c" ∧
    parseNextLink (linkHeaderOf listEntries) = firstNext listEntries :=
  ⟨by decide, by decide, by decide, by decide,
    (parseNextLink_first_next demoEntries (by decide) (by decide)).1,
    by decide, by decide, by decide, by decide,
    (parseNextLink_first_next listEntries (by decide) (by decide)).1⟩

end GhcrCleaner
